import Mathlib

set_option maxHeartbeats 1000000
set_option maxRecDepth 4000

/-!
Verification of the `mbo-stream` market-by-order engine.

This file gives a shallow embedding of the C++ sources and proves the
frozen claims about them:

* `MboOrderBook` (`src/mbo-stream/src/mbo_order_book.cpp`) — the two-sided
  price-time-priority book: `apply`, `add_`, `cancel_`, `modify_`, `clear_`.
* `Pow2Histogram` (power-of-two latency histogram) — `bucket`, `add`,
  `percentile`.
* The persistent-writer bounded queue (`enqueue_snapshot_write` in
  `tcp_main_ws.cpp`).
* The WebSocket control-plane parser (`WsSession::parse_control_message`,
  `WsSession::on_read`).
* The driver's symbol-adoption step (`handle_line`).
* The snapshot store (`publish_snapshot` / `load_snapshot`).

Modelling conventions: C++ integer types are embedded as `Int` (with
explicit two's-complement wrap where a narrowing cast occurs), `uint64_t`
counters as `Nat`, `std::map` as an association list kept sorted by the
map's comparator, `std::list` as `List`, and `std::unordered_map` as an
association list.  The `OrderRef::it` list iterator is represented by the
order id of the node it designates: in every well-formed book an order id
occurs at most once, so the id identifies the node.  Branches that would
dereference a dangling iterator in C++ (impossible in well-formed books,
undefined behaviour otherwise) leave the book unchanged in the model.
-/

namespace MboSpec

/-- One ingress MBO record (the fields the book engine consumes). -/
structure MboEvent where
  action : Char
  side : Char
  price : Int
  size : Int
  order_id : Int
  symbol : String
  deriving DecidableEq, Repr

/-- A resting order inside the book (struct `Order` in `order_types.hpp`). -/
structure Order where
  order_id : Int
  price : Int
  qty : Int
  deriving DecidableEq, Repr

/-- Reference to an order's position (struct `OrderRef`): which side,
which price level.  The C++ `it` iterator is modelled by the index key. -/
structure OrderRef where
  is_buy : Bool
  price : Int
  deriving DecidableEq, Repr

/-- A price level: FIFO queue of orders, head = oldest (`std::list<Order>`). -/
abbrev Level := List Order

/-- One side of the book: `std::map<int64_t, std::list<Order>, cmp>`,
modelled as an association list sorted by the map's comparator. -/
abbrev Side := List (Int × Level)

/-- The order index: `std::unordered_map<int64_t, OrderRef>`. -/
abbrev Index := List (Int × OrderRef)

/-- `map.find(k)` returning the mapped level. -/
def mapFind : Side → Int → Option Level
  | [], _ => none
  | (p, l) :: rest, k => if p = k then some l else mapFind rest k

/-- Replace the level stored at key `k` (key assumed present; no-op else). -/
def setLevel : Side → Int → Level → Side
  | [], _, _ => []
  | (p, l) :: rest, k, l' => if p = k then (p, l') :: rest else (p, l) :: setLevel rest k l'

/-- `map.erase(k)`: drop the entry with key `k`. -/
def eraseKey : Side → Int → Side
  | [], _ => []
  | (p, l) :: rest, k => if p = k then rest else (p, l) :: eraseKey rest k

/-- Erase the node with the given order id from a level
(`lvl.erase(it)`; the iterator designates the unique node with that id). -/
def eraseOrder (oid : Int) : Level → Level
  | [] => []
  | o :: rest => if o.order_id = oid then rest else o :: eraseOrder oid rest

/-- Write a new quantity through the iterator (`ref.it->qty = q`). -/
def setQty (oid : Int) (q : Int) : Level → Level
  | [] => []
  | o :: rest =>
    if o.order_id = oid then { o with qty := q } :: rest else o :: setQty oid q rest

/-- Dereference the iterator: the unique node with the given id, if any. -/
def findOrder (oid : Int) : Level → Option Order
  | [] => none
  | o :: rest => if o.order_id = oid then some o else findOrder oid rest

/-- The comparator of the side's `std::map`: `greater` for bids (descending
prices), `less` for asks (ascending prices).  `sideLt buy a b` means key `a`
is ordered before key `b`. -/
def sideLt (buy : Bool) (a b : Int) : Bool :=
  if buy then decide (b < a) else decide (a < b)

/-- `side[k].push_back(o)`: append `o` to the FIFO at price `k`, creating the
level at its sorted position when absent (`std::map::operator[]`). -/
def appendAtLevel (lt : Int → Int → Bool) : Side → Int → Order → Side
  | [], k, o => [(k, [o])]
  | (p, l) :: rest, k, o =>
    if p = k then (p, l ++ [o]) :: rest
    else if lt k p then (k, [o]) :: (p, l) :: rest
    else (p, l) :: appendAtLevel lt rest k o

/-- `find(k)`; if found, erase the node with id `oid` from the level and drop
the level if it became empty; if the key is absent, no change.  This is the
`lvlIt->second.erase(...); if (empty) erase(lvlIt)` pattern. -/
def eraseFromLevel : Side → Int → Int → Side
  | [], _, _ => []
  | (p, l) :: rest, k, oid =>
    if p = k then
      (let l' := eraseOrder oid l
       if l' = [] then rest else (p, l') :: rest)
    else (p, l) :: eraseFromLevel rest k oid

/-- `index_.find(oid)`. -/
def idxFind : Index → Int → Option OrderRef
  | [], _ => none
  | (k, v) :: rest, oid => if k = oid then some v else idxFind rest oid

/-- `index_.erase(oid)` (keys are unique in reachable states). -/
def idxErase : Index → Int → Index
  | [], _ => []
  | (k, v) :: rest, oid => if k = oid then rest else (k, v) :: idxErase rest oid

/-- `index_.emplace(oid, r)`: insert only when the key is absent. -/
def idxEmplace (idx : Index) (oid : Int) (r : OrderRef) : Index :=
  match idxFind idx oid with
  | some _ => idx
  | none => idx ++ [(oid, r)]

/-- Mutate the `OrderRef` stored at `oid` in place (`ref.price = ...` etc.). -/
def idxSet : Index → Int → OrderRef → Index
  | [], _, _ => []
  | (k, v) :: rest, oid, r => if k = oid then (k, r) :: rest else (k, v) :: idxSet rest oid r

/-- The book state (class `MboOrderBook`). -/
structure Book where
  symbol : String
  bids : Side
  asks : Side
  index : Index
  deriving DecidableEq, Repr

/-- `MboOrderBook(sym)`: a freshly constructed, empty book. -/
def emptyBook (sym : String) : Book := { symbol := sym, bids := [], asks := [], index := [] }

/-- Select one side of the book. -/
def Book.side (b : Book) (buy : Bool) : Side := if buy then b.bids else b.asks

/-- Replace one side of the book. -/
def Book.setSide (b : Book) (buy : Bool) (s : Side) : Book :=
  if buy then { b with bids := s } else { b with asks := s }

/-- `MboOrderBook::clear_`. -/
def clear_ (b : Book) : Book := { b with bids := [], asks := [], index := [] }

/-- `MboOrderBook::add_`: defensively remove a stale order with the same id,
then append the new order at the tail of the FIFO at `e.price` and record its
location in the index. -/
def add_ (b : Book) (e : MboEvent) : Book :=
  let is_buy := e.side == 'B'
  let b :=
    match idxFind b.index e.order_id with
    | some oldRef =>
      let b := b.setSide oldRef.is_buy
        (eraseFromLevel (b.side oldRef.is_buy) oldRef.price e.order_id)
      { b with index := idxErase b.index e.order_id }
    | none => b
  let b := b.setSide is_buy
    (appendAtLevel (sideLt is_buy) (b.side is_buy) e.price
      { order_id := e.order_id, price := e.price, qty := e.size })
  { b with index := idxEmplace b.index e.order_id { is_buy := is_buy, price := e.price } }

/-- `MboOrderBook::cancel_`: partial or full cancel through the index. -/
def cancel_ (b : Book) (e : MboEvent) : Book :=
  match idxFind b.index e.order_id with
  | none => b
  | some ref =>
    match mapFind (b.side ref.is_buy) ref.price with
    | none => { b with index := idxErase b.index e.order_id }
    | some lvl =>
      match findOrder e.order_id lvl with
      | none => b
      | some o =>
        let q1 := if o.qty ≤ e.size then 0 else o.qty - e.size
        if q1 = 0 then
          let l' := eraseOrder e.order_id lvl
          let s' := if l' = [] then eraseKey (b.side ref.is_buy) ref.price
                    else setLevel (b.side ref.is_buy) ref.price l'
          let b := b.setSide ref.is_buy s'
          { b with index := idxErase b.index e.order_id }
        else
          b.setSide ref.is_buy (setLevel (b.side ref.is_buy) ref.price (setQty e.order_id q1 lvl))

/-- `MboOrderBook::modify_`: price change or size increase lose priority,
otherwise the quantity is updated in place. -/
def modify_ (b : Book) (e : MboEvent) : Book :=
  match idxFind b.index e.order_id with
  | none => add_ b e
  | some ref =>
    if (e.side == 'B') ≠ ref.is_buy then b
    else if e.price ≠ ref.price then
      let s1 := eraseFromLevel (b.side ref.is_buy) ref.price e.order_id
      let s2 := appendAtLevel (sideLt ref.is_buy) s1 e.price
        { order_id := e.order_id, price := e.price, qty := e.size }
      let b := b.setSide ref.is_buy s2
      { b with index := idxSet b.index e.order_id { is_buy := ref.is_buy, price := e.price } }
    else
      match mapFind (b.side ref.is_buy) ref.price with
      | none => b
      | some lvl =>
        match findOrder e.order_id lvl with
        | none => b
        | some o =>
          if o.qty < e.size then
            b.setSide ref.is_buy (setLevel (b.side ref.is_buy) ref.price
              (eraseOrder e.order_id lvl ++
                [{ order_id := e.order_id, price := ref.price, qty := e.size }]))
          else
            b.setSide ref.is_buy (setLevel (b.side ref.is_buy) ref.price
              (setQty e.order_id e.size lvl))

/-- `MboOrderBook::apply`. -/
def apply (b : Book) (e : MboEvent) : Book :=
  if e.action = 'T' ∨ e.action = 'F' ∨ e.action = 'N' then b
  else if e.action = 'R' then clear_ b
  else if e.side ≠ 'A' ∧ e.side ≠ 'B' then b
  else if e.action = 'A' then add_ b e
  else if e.action = 'C' then cancel_ b e
  else if e.action = 'M' then modify_ b e
  else b

/-- Apply a sequence of events in arrival order. -/
def applyList (es : List MboEvent) (b : Book) : Book := es.foldl apply b

/-! ## Pow2Histogram (`pow2_histogram.hpp`)

`uint64_t` counters are embedded as `Nat`; the `double` argument of
`percentile` is embedded as `ℚ` (the multiplications `p * n` appearing in
the claims are exact in binary floating point at the concrete inputs used
below, so the rational model is faithful there). -/

/-- Histogram state: 64 bucket counters and the sample count. -/
structure Pow2Histogram where
  c : List Nat
  n : Nat
  deriving DecidableEq, Repr

/-- A freshly constructed `Pow2Histogram` (all counters zero). -/
def emptyHist : Pow2Histogram := { c := List.replicate 64 0, n := 0 }

/-- The portable fallback loop of `Pow2Histogram::bucket`:
`while ((1ull << (b + 1)) <= ns && b < 63) ++b;` — the fuel argument is the
remaining iteration allowance `63 - b`, so the loop stops at `b = 63`. -/
def bucketGo (ns : Nat) (b : Nat) : Nat → Nat
  | 0 => b
  | fuel + 1 => if 2 ^ (b + 1) ≤ ns then bucketGo ns (b + 1) fuel else b

/-- `Pow2Histogram::bucket`: `63 - clz(ns)` = floor of log2, clamped to
`[0, 63]`, with `bucket 0 = 0`. -/
def bucket (ns : Nat) : Nat :=
  if ns = 0 then 0 else bucketGo ns 0 63

/-- `Pow2Histogram::add`. -/
def Pow2Histogram.add (h : Pow2Histogram) (ns : Nat) : Pow2Histogram :=
  { c := h.c.set (bucket ns) (h.c.getD (bucket ns) 0 + 1), n := h.n + 1 }

/-- The `for (b = 0; b < K; ++b)` scan of `percentile`: accumulate counters
until the running total reaches `target`. -/
def percLoop : List Nat → Nat → Nat → Nat → Nat
  | [], _, _, _ => 2 ^ 63
  | cb :: rest, b, target, cum =>
    if target ≤ cum + cb then (if 63 ≤ b then 2 ^ 63 else 2 ^ (b + 1))
    else percLoop rest (b + 1) target (cum + cb)

/-- `Pow2Histogram::percentile`: note the C++ computes
`target = (uint64_t)(p * (double)n)`, a truncation of a nonnegative value
(floor), then bumps a zero target to 1. -/
def percentile (h : Pow2Histogram) (p : ℚ) : Nat :=
  if h.n = 0 then 0
  else
    let p := if p < 0 then 0 else p
    let p := if 1 < p then 1 else p
    let target := (p * (h.n : ℚ)).floor.toNat
    let target := if target = 0 then 1 else target
    percLoop h.c 0 target 0

/-- Modelled from the spec: `percentile(p)` as the claim words it, with the
target rank `⌈p·n⌉` instead of the code's truncated `⌊p·n⌋`.  Used only to
compare the code's behaviour against the claim. -/
def claimPercentile (h : Pow2Histogram) (p : ℚ) : Nat :=
  if h.n = 0 then 0
  else
    let p := if p < 0 then 0 else p
    let p := if 1 < p then 1 else p
    let target := (p * (h.n : ℚ)).ceil.toNat
    let target := if target = 0 then 1 else target
    percLoop h.c 0 target 0

/-! ## Persistent-writer bounded queue (`enqueue_snapshot_write`,
`tcp_main_ws.cpp`)

The queue discipline is independent of the payload (`SnapshotWrite`), so the
item type is a parameter. -/

/-- The `while (q.size() >= max_q) q.pop_front();` loop.  (With `max_q = 0`
the C++ would pop an empty deque — undefined behaviour; the model stops at
the empty queue.) -/
def shed (maxq : Nat) : List α → List α
  | [] => []
  | x :: t => if maxq ≤ t.length + 1 then shed maxq t else x :: t

/-- `enqueue_snapshot_write`: drop-oldest until below capacity, then append.
The function is total — the producer never blocks and never fails. -/
def enqueue_snapshot_write (pg : Bool) (maxq : Nat) (q : List α) (item : α) : List α :=
  if pg = false then q else shed maxq q ++ [item]

/-! ## WebSocket control plane (`WsSession`, `ws_server.cpp`)

`std::string` values are embedded as `List Char` inside the parser;
`int` fields as `Int` with an explicit two's-complement wrap where the C++
performs a narrowing cast. -/

/-- C `isspace` in the default locale. -/
def isCSpace (ch : Char) : Bool :=
  ch == ' ' || ch == '\t' || ch == '\n' || ch == '\x0b' || ch == '\x0c' || ch == '\r'

/-- `std::string::find(pat)`: index of the first occurrence of `pat`. -/
def listFind (pat : List Char) : List Char → Option Nat
  | [] => if pat.isEmpty then some 0 else none
  | c :: t =>
    if pat.isPrefixOf (c :: t) then some 0
    else (listFind pat t).map (fun i => i + 1)

/-- Index of the first occurrence of a character. -/
def listFindChar (ch : Char) : List Char → Option Nat
  | [] => none
  | c :: t => if c == ch then some 0 else (listFindChar ch t).map (fun i => i + 1)

/-- `std::string::find(ch, start)`. -/
def findCharFrom (s : List Char) (ch : Char) (start : Nat) : Option Nat :=
  (listFindChar ch (s.drop start)).map (fun i => start + i)

/-- The `while (isspace) ++i` loop of `skip_ws`, over the suffix. -/
def skipWsAux : List Char → Nat → Nat
  | [], i => i
  | c :: t, i => if isCSpace c then skipWsAux t (i + 1) else i

/-- `WsSession::skip_ws`. -/
def skipWsFrom (s : List Char) (i : Nat) : Nat := skipWsAux (s.drop i) i

/-- `WsSession::parse_string_value_after_key`. -/
def parse_string_value_after_key (s : List Char) (key : List Char) : Option (List Char) :=
  match listFind ('"' :: key ++ ['"']) s with
  | none => none
  | some kpos =>
    match findCharFrom s ':' kpos with
    | none => none
    | some cpos =>
      let i := skipWsFrom s (cpos + 1)
      match s.drop i with
      | '"' :: _ =>
        (match findCharFrom s '"' (i + 1) with
         | none => none
         | some e => some ((s.drop (i + 1)).take (e - (i + 1))))
      | _ => none

/-- The digit-accumulation loop of `parse_int_value_after_key`, including the
`if (val > 1000000000LL) break;` guard. -/
def digitsLoop : List Char → Int → Int
  | [], val => val
  | c :: t, val =>
    if c.isDigit then
      (let val := val * 10 + ((c.toNat : Int) - 48)
       if 1000000000 < val then val else digitsLoop t val)
    else val

/-- `static_cast<int>` of a `long long`: two's-complement wrap to 32 bits. -/
def toInt32 (v : Int) : Int := (v + 2 ^ 31) % 2 ^ 32 - 2 ^ 31

/-- `WsSession::parse_int_value_after_key`. -/
def parse_int_value_after_key (s : List Char) (key : List Char) : Option Int :=
  match listFind ('"' :: key ++ ['"']) s with
  | none => none
  | some kpos =>
    match findCharFrom s ':' kpos with
    | none => none
    | some cpos =>
      let i := skipWsFrom s (cpos + 1)
      let negRest : Bool × List Char :=
        match s.drop i with
        | '-' :: r => (true, r)
        | r => (false, r)
      match negRest.2 with
      | c :: _ =>
        if c.isDigit then
          (let v := digitsLoop negRest.2 0
           some (toInt32 (if negRest.1 then -v else v)))
        else none
      | [] => none

/-- Per-session control-plane state (`symbol_`, `depth_`, `push_ms_`). -/
structure WsSession where
  symbol : String
  depth : Int
  push_ms : Int
  deriving DecidableEq, Repr

/-- The `symbol` update step of `parse_control_message`. -/
def applySymbolUpdate (st : WsSession) (s : List Char) : WsSession :=
  match parse_string_value_after_key s ("symbol".toList) with
  | some sym => if sym ≠ [] then { st with symbol := String.mk sym } else st
  | none => st

/-- The `depth` update step: applied only when `0 < d ≤ 200`. -/
def applyDepthUpdate (st : WsSession) (s : List Char) : WsSession :=
  match parse_int_value_after_key s ("depth".toList) with
  | some d => if 0 < d ∧ d ≤ 200 then { st with depth := d } else st
  | none => st

/-- The `push_ms` update step: clamped to `[10, 5000]`. -/
def applyPushMsUpdate (st : WsSession) (s : List Char) : WsSession :=
  match parse_int_value_after_key s ("push_ms".toList) with
  | some pm =>
    (let pm := if pm < 10 then 10 else pm
     let pm := if 5000 < pm then 5000 else pm
     { st with push_ms := pm })
  | none => st

/-- `WsSession::parse_control_message`: `true` iff the `type` field parses to
`subscribe` or `update`; in that case the optional updates are applied.  (The
C++ `type_out` out-parameter is used only for logging and is not modelled.) -/
def parse_control_message (st : WsSession) (msg : String) : Bool × WsSession :=
  let s := msg.toList
  match parse_string_value_after_key s ("type".toList) with
  | none => (false, st)
  | some ty =>
    if ty ≠ ("subscribe".toList) ∧ ty ≠ ("update".toList) then (false, st)
    else (true, applyPushMsUpdate (applyDepthUpdate (applySymbolUpdate st s) s) s)

/-- `WsSession::make_ack_json`. -/
def make_ack_json (symbol : String) (depth push_ms : Int) : String :=
  "\x7b\"type\":\"ack\",\"symbol\":\"" ++ symbol ++ "\",\"depth\":" ++ toString depth ++
    ",\"push_ms\":" ++ toString push_ms ++ "\x7d"

/-- `WsSession::on_read` on a successfully received text frame: the new
session state and the list of reply frames sent. -/
def on_read (st : WsSession) (msg : String) : WsSession × List String :=
  let r := parse_control_message st msg
  if r.1 then (r.2, [make_ack_json r.2.symbol r.2.depth r.2.push_ms]) else (r.2, [])

/-! ## Engine driver symbol adoption (`handle_line`, `tcp_main_ws.cpp`) -/

/-- The driver state relevant to symbol adoption: the book, the adopted
symbol, and whether one has been adopted. -/
structure DriverState where
  book : Book
  book_symbol : String
  has_symbol : Bool
  deriving DecidableEq, Repr

/-- The book-mutation core of `handle_line` for one successfully parsed
event: adopt the first non-empty symbol (constructing a fresh book), then
apply the event. -/
def handle_event (st : DriverState) (e : MboEvent) : DriverState :=
  let st :=
    if st.has_symbol = false ∧ e.symbol ≠ "" then
      { book := emptyBook e.symbol, book_symbol := e.symbol, has_symbol := true }
    else st
  { st with book := apply st.book e }

/-! ## Snapshot store (`snapshot_store.cpp`) -/

/-- The process-wide snapshot store: the per-symbol map and the global
fallback slot.  The stored `shared_ptr<const string>` handles are always
non-null (`make_shared` everywhere, and the global slot is initialized to
`"\x7b\x7d"`), so a handle is embedded as the `String` it points to. -/
structure SnapshotStore where
  by_symbol : List (String × String)
  global : String
  deriving DecidableEq, Repr

/-- The static initializers of `snapshot_store.cpp`. -/
def initStore : SnapshotStore := { by_symbol := [], global := "\x7b\x7d" }

/-- `g_latest_by_symbol[symbol] = p`: insert or overwrite. -/
def storeSet : List (String × String) → String → String → List (String × String)
  | [], sym, v => [(sym, v)]
  | (k, w) :: rest, sym, v =>
    if k = sym then (k, v) :: rest else (k, w) :: storeSet rest sym v

/-- Lookup in the per-symbol map. -/
def storeFind : List (String × String) → String → Option String
  | [], _ => none
  | (k, w) :: rest, sym => if k = sym then some w else storeFind rest sym

/-- `publish_snapshot(std::string)`: replace the global slot. -/
def publish_snapshot_global (st : SnapshotStore) (s : String) : SnapshotStore :=
  { st with global := s }

/-- `publish_snapshot(symbol, s)`: replace the per-symbol slot. -/
def publish_snapshot_sym (st : SnapshotStore) (sym s : String) : SnapshotStore :=
  { st with by_symbol := storeSet st.by_symbol sym s }

/-- `load_snapshot(symbol)`: per-symbol slot, falling back to the global
slot.  Total — there is no failure path. -/
def load_snapshot_sym (st : SnapshotStore) (sym : String) : String :=
  match storeFind st.by_symbol sym with
  | some v => v
  | none => st.global

/-- A publish operation against the store. -/
inductive StoreOp where
  | pubGlobal (s : String)
  | pubSym (sym : String) (s : String)
  deriving DecidableEq, Repr

/-- Run one publish operation. -/
def storeStep (st : SnapshotStore) : StoreOp → SnapshotStore
  | .pubGlobal s => publish_snapshot_global st s
  | .pubSym sym s => publish_snapshot_sym st sym s

/-- Run a sequence of publish operations from a given store state. -/
def runStoreFrom (st : SnapshotStore) (ops : List StoreOp) : SnapshotStore :=
  ops.foldl storeStep st

/-- Run a sequence of publish operations from the initial store. -/
def runStore (ops : List StoreOp) : SnapshotStore := ops.foldl storeStep initStore

/-- Modelled from the claim's words: the most recently published snapshot
for `sym` among `ops`, if any. -/
def lastSymPublish : List StoreOp → String → Option String
  | [], _ => none
  | op :: rest, sym =>
    match lastSymPublish rest sym with
    | some v => some v
    | none =>
      match op with
      | .pubSym s v => if s = sym then some v else none
      | _ => none

/-- Modelled from the claim's words: the most recently published global
snapshot among `ops`, if any. -/
def lastGlobalPublish : List StoreOp → Option String
  | [] => none
  | op :: rest =>
    match lastGlobalPublish rest with
    | some v => some v
    | none =>
      match op with
      | .pubGlobal v => some v
      | _ => none

/-! ## Concrete inputs used by witnesses and counterexamples -/

/-- Shorthand for building a concrete MBO event. -/
def mkEv (a s : Char) (px sz oid : Int) (sym : String) : MboEvent :=
  { action := a, side := s, price := px, size := sz, order_id := oid, symbol := sym }

/-- Histogram with samples 1, 40, 40 (buckets 0, 5, 5). -/
def hC5 : Pow2Histogram := ((emptyHist.add 1).add 40).add 40

/-- A book with orders on both sides built from concrete adds. -/
def bookBoth : Book :=
  applyList [mkEv 'A' 'B' 100 5 1 "S", mkEv 'A' 'A' 100 3 2 "S"] (emptyBook "S")

/-- Concrete bid book used by the cancel/modify witnesses:
two bids at 100 (ids 1 then 2), one bid at 99 (id 3), one ask at 101 (id 4). -/
def bookW : Book :=
  applyList
    [mkEv 'A' 'B' 100 5 1 "S", mkEv 'A' 'B' 100 7 2 "S",
     mkEv 'A' 'B' 99 4 3 "S", mkEv 'A' 'A' 101 6 4 "S"]
    (emptyBook "S")

/-- Default session state used by the control-plane witness. -/
def stW : WsSession := { symbol := "CLX5", depth := 10, push_ms := 50 }

/-- Concrete control frame used by the control-plane witness. -/
def msgW : String := "\x7b\"type\":\"update\",\"depth\":20,\"push_ms\":7\x7d"

/-- Driver state before any symbol was observed, with two orders already
inserted by empty-symbol events. -/
def dstW : DriverState :=
  { book := applyList [mkEv 'A' 'B' 100 5 1 "", mkEv 'A' 'A' 101 3 2 ""] (emptyBook "")
    book_symbol := ""
    has_symbol := false }

/-- First event carrying a symbol, seen by the driver witness. -/
def evW : MboEvent := mkEv 'A' 'B' 102 9 7 "CLX5"

/-! ## Well-formedness of a book

The invariant bundle preserved by `apply`, from which the claimed
invariants follow: both sides are sorted by their map comparator with
non-empty levels whose orders carry the level's price; the set of
`(order id, OrderRef)` pairs present in the levels has pairwise-distinct
ids and coincides exactly with the contents of the order index. -/

/-- All entries contributed by one level: each resting order paired with
the reference that should describe it. -/
def levelEntries (buy : Bool) (p : Int) (lvl : Level) : List (Int × OrderRef) :=
  lvl.map (fun o => (o.order_id, { is_buy := buy, price := p }))

/-- All entries contributed by one side. -/
def sideEntries (buy : Bool) : Side → List (Int × OrderRef)
  | [] => []
  | (p, l) :: rest => levelEntries buy p l ++ sideEntries buy rest

/-- All entries present in the book's levels. -/
def bookEntries (b : Book) : List (Int × OrderRef) :=
  sideEntries true b.bids ++ sideEntries false b.asks

/-- One side is well-formed: keys strictly sorted by the comparator,
levels non-empty, and order prices equal to their level keys. -/
def SideWF (lt : Int → Int → Bool) (s : Side) : Prop :=
  s.Pairwise (fun x y => lt x.1 y.1 = true) ∧
    ∀ pl ∈ s, pl.2 ≠ [] ∧ ∀ o ∈ pl.2, o.price = pl.1

/-- The full well-formedness invariant of a book. -/
structure WF (b : Book) : Prop where
  bids_wf : SideWF (sideLt true) b.bids
  asks_wf : SideWF (sideLt false) b.asks
  ids_nodup : ((bookEntries b).map Prod.fst).Nodup
  idx_nodup : ((b.index).map Prod.fst).Nodup
  idx_iff : ∀ k v, idxFind b.index k = some v ↔ (k, v) ∈ bookEntries b

/-- The index-consistency property claimed by the spec: every index entry
designates a live node in the level keyed by its recorded price on its
recorded side, whose id is the index key and whose price ties to the level
key. -/
def IndexConsistent (b : Book) : Prop :=
  ∀ oid ref, idxFind b.index oid = some ref →
    ∃ lvl, mapFind (b.side ref.is_buy) ref.price = some lvl ∧
      ∃ o, o ∈ lvl ∧ o.order_id = oid ∧ o.price = ref.price

/-! ## Theorems: persistent-writer queue (C6) -/

theorem shed_eq_drop {α : Type} (maxq : Nat) (q : List α) :
    shed maxq q = q.drop (q.length + 1 - maxq) := by
  induction q with
  | nil => simp [shed]
  | cons x t ih =>
    by_cases h : maxq ≤ t.length + 1
    · rw [show shed maxq (x :: t) = shed maxq t by simp [shed, h], ih]
      have he : (x :: t).length + 1 - maxq = (t.length + 1 - maxq) + 1 := by
        simp only [List.length_cons]; omega
      rw [he, List.drop_succ_cons]
    · rw [show shed maxq (x :: t) = x :: t by simp [shed, h]]
      have he : (x :: t).length + 1 - maxq = 0 := by
        simp only [List.length_cons]; omega
      rw [he, List.drop_zero]

theorem enqueue_eq_drop {α : Type} (C : Nat) (q : List α) (x : α) :
    enqueue_snapshot_write true C q x = q.drop (q.length + 1 - C) ++ [x] := by
  rw [show enqueue_snapshot_write true C q x = shed C q ++ [x] by
    simp [enqueue_snapshot_write]]
  rw [shed_eq_drop C q]

theorem enqueue_foldl {α : Type} (C : Nat) (hC : 1 ≤ C) :
    ∀ (items q0 : List α), items ≠ [] →
      items.foldl (enqueue_snapshot_write true C) q0 =
        (q0 ++ items).drop (q0.length + items.length - C) := by
  intro items
  induction items with
  | nil => intro q0 h; exact absurd rfl h
  | cons x rest ih =>
    intro q0 _
    cases rest with
    | nil =>
      show enqueue_snapshot_write true C q0 x = (q0 ++ [x]).drop (q0.length + 1 - C)
      rw [enqueue_eq_drop C, List.drop_append_eq_append_drop,
        show q0.length + 1 - C - q0.length = 0 by omega, List.drop_zero]
    | cons y rest' =>
      show List.foldl _ (enqueue_snapshot_write true C q0 x) (y :: rest') = _
      rw [ih (enqueue_snapshot_write true C q0 x) (by simp)]
      rw [enqueue_eq_drop C]
      have hd : q0.length + 1 - C ≤ q0.length := by omega
      have h1 : (q0.drop (q0.length + 1 - C) ++ [x]) ++ y :: rest' =
          (q0 ++ x :: y :: rest').drop (q0.length + 1 - C) := by
        rw [List.drop_append_of_le_length hd, List.append_assoc]
        simp
      rw [h1, List.drop_drop]
      congr 1
      have h2 : (q0.drop (q0.length + 1 - C) ++ [x]).length =
          q0.length - (q0.length + 1 - C) + 1 := by simp
      rw [h2]
      simp only [List.length_cons, List.length_append]
      omega

/-- C6: K enqueues into the bounded writer queue of capacity C with no
dequeues, K > C ≥ 1, leave exactly the most recent C items in arrival
order; a single enqueue onto a full queue drops the oldest item and appends
the new one (the enqueue function is total: it never blocks or fails). -/
theorem writer_queue_backpressure {α : Type} (q0 items : List α) (C : Nat)
    (hC : 0 < C) (hK : C < items.length) :
    items.foldl (enqueue_snapshot_write true C) q0 = items.drop (items.length - C) ∧
    ∀ (q : List α) (x : α), q.length = C →
      enqueue_snapshot_write true C q x = q.drop 1 ++ [x] := by
  constructor
  · have hne : items ≠ [] := by
      intro h
      rw [h] at hK
      simp at hK
    rw [enqueue_foldl C hC items q0 hne, List.drop_append_eq_append_drop,
      List.drop_eq_nil_of_le (by omega), List.nil_append]
    congr 1
    omega
  · intro q x hq
    rw [enqueue_eq_drop C, hq, show C + 1 - C = 1 by omega]

/-- Witness for C6 at capacity 2 with items [1, 2, 3] and an empty initial
queue. -/
theorem writer_queue_backpressure_witness :
    (0 < 2 ∧ 2 < [1, 2, 3].length) ∧
      ([1, 2, 3].foldl (enqueue_snapshot_write true 2) ([] : List Nat) =
          [1, 2, 3].drop ([1, 2, 3].length - 2) ∧
        ∀ (q : List Nat) (x : Nat), q.length = 2 →
          enqueue_snapshot_write true 2 q x = q.drop 1 ++ [x]) :=
  ⟨⟨by decide, by decide⟩, writer_queue_backpressure [] [1, 2, 3] 2 (by decide) (by decide)⟩

/-! ## Theorems: driver symbol adoption (C8) -/

/-- C8: when no symbol has been adopted yet and a parsed event carries a
non-empty symbol, the driver constructs a fresh empty book for that symbol
and applies the event to it; the previous book's contents do not influence
the result (orders inserted by earlier empty-symbol events are discarded). -/
theorem first_symbol_replaces_book (st : DriverState) (e : MboEvent)
    (h1 : st.has_symbol = false) (h2 : e.symbol ≠ "") :
    handle_event st e =
      { book := apply (emptyBook e.symbol) e
        book_symbol := e.symbol
        has_symbol := true } ∧
    ∀ st' : DriverState, st'.has_symbol = false →
      (handle_event st' e).book = (handle_event st e).book := by
  refine ⟨by simp [handle_event, h1, h2], ?_⟩
  intro st' h'
  simp [handle_event, h1, h2, h']

/-- Witness for C8: a driver holding two orders from empty-symbol events
adopts "CLX5" from the first symbol-carrying event. -/
theorem first_symbol_replaces_book_witness :
    (dstW.has_symbol = false ∧ evW.symbol ≠ "") ∧
      (handle_event dstW evW =
        { book := apply (emptyBook evW.symbol) evW
          book_symbol := evW.symbol
          has_symbol := true } ∧
       ∀ st' : DriverState, st'.has_symbol = false →
         (handle_event st' evW).book = (handle_event dstW evW).book) :=
  ⟨⟨rfl, by decide⟩, first_symbol_replaces_book dstW evW rfl (by decide)⟩

/-! ## Theorems: snapshot store (C10) -/

theorem storeFind_storeSet (m : List (String × String)) (sym v k : String) :
    storeFind (storeSet m sym v) k = if sym = k then some v else storeFind m k := by
  induction m with
  | nil =>
    by_cases h : sym = k <;> simp [storeSet, storeFind, h]
  | cons hd t ih =>
    obtain ⟨a, w⟩ := hd
    by_cases h : a = sym
    · subst h
      rw [show storeSet ((a, w) :: t) a v = (a, v) :: t by simp [storeSet]]
      by_cases h2 : a = k <;> simp [storeFind, h2]
    · rw [show storeSet ((a, w) :: t) sym v = (a, w) :: storeSet t sym v by
        simp [storeSet, h]]
      by_cases h2 : a = k
      · subst h2
        have hsk : ¬ sym = a := fun he => h he.symm
        simp [storeFind, hsk]
      · simp [storeFind, h2, ih]

theorem storeFind_runStoreFrom (ops : List StoreOp) :
    ∀ (st : SnapshotStore) (sym : String),
      storeFind (runStoreFrom st ops).by_symbol sym =
        (match lastSymPublish ops sym with
         | some v => some v
         | none => storeFind st.by_symbol sym) := by
  induction ops with
  | nil => intro st sym; simp [runStoreFrom, lastSymPublish]
  | cons op rest ih =>
    intro st sym
    rw [show runStoreFrom st (op :: rest) = runStoreFrom (storeStep st op) rest from rfl, ih]
    cases hl : lastSymPublish rest sym with
    | some v => simp [lastSymPublish, hl]
    | none =>
      cases op with
      | pubGlobal s => simp [lastSymPublish, hl, storeStep, publish_snapshot_global]
      | pubSym s v =>
        simp only [lastSymPublish, hl, storeStep, publish_snapshot_sym, storeFind_storeSet]
        by_cases hs : s = sym <;> simp [hs]

theorem global_runStoreFrom (ops : List StoreOp) :
    ∀ st : SnapshotStore,
      (runStoreFrom st ops).global =
        (match lastGlobalPublish ops with
         | some v => v
         | none => st.global) := by
  induction ops with
  | nil => intro st; simp [runStoreFrom, lastGlobalPublish]
  | cons op rest ih =>
    intro st
    rw [show runStoreFrom st (op :: rest) = runStoreFrom (storeStep st op) rest from rfl, ih]
    cases hl : lastGlobalPublish rest with
    | some v => simp [lastGlobalPublish, hl]
    | none =>
      cases op with
      | pubGlobal s => simp [lastGlobalPublish, hl, storeStep, publish_snapshot_global]
      | pubSym s v => simp [lastGlobalPublish, hl, storeStep, publish_snapshot_sym]

/-- C10: `load_snapshot(symbol)` is a total function (the model returns a
definite string for every store state, and every stored handle is non-null
by construction): after any sequence of publishes it returns the most
recently published snapshot for the symbol, and otherwise the global slot,
which holds the two-character string of an empty JSON object until a global
publish replaces it. -/
theorem load_snapshot_spec (ops : List StoreOp) (sym : String) :
    load_snapshot_sym (runStore ops) sym =
      (match lastSymPublish ops sym with
       | some v => v
       | none =>
         match lastGlobalPublish ops with
         | some v => v
         | none => "\x7b\x7d") := by
  have hrun : runStore ops = runStoreFrom initStore ops := rfl
  rw [load_snapshot_sym, hrun, storeFind_runStoreFrom]
  cases hl : lastSymPublish ops sym with
  | some v => simp
  | none =>
    simp only [storeFind, initStore]
    rw [global_runStoreFrom]

/-! ## Theorems: latency histogram (C5) -/

theorem ratFloor_eq_intFloor (q : ℚ) : q.floor = ⌊q⌋ := by
  rw [Rat.floor_def', ← Rat.floor_def]

theorem percLoop_spec :
    ∀ (c : List Nat) (b target cum : Nat), cum < target → target ≤ cum + c.sum →
      ∃ j, j < c.length ∧ target ≤ cum + (c.take (j + 1)).sum ∧
        cum + (c.take j).sum < target ∧
        percLoop c b target cum = (if 63 ≤ b + j then 2 ^ 63 else 2 ^ (b + j + 1)) := by
  intro c
  induction c with
  | nil =>
    intro b target cum h1 h2
    simp only [List.sum_nil] at h2
    omega
  | cons cb rest ih =>
    intro b target cum h1 h2
    by_cases hc : target ≤ cum + cb
    · refine ⟨0, by simp, ?_, ?_, ?_⟩
      · simpa using hc
      · simpa using h1
      · rw [show percLoop (cb :: rest) b target cum =
            (if 63 ≤ b then 2 ^ 63 else 2 ^ (b + 1)) by simp [percLoop, hc]]
        simp
    · have h1' : cum + cb < target := by omega
      have h2' : target ≤ (cum + cb) + rest.sum := by
        simp only [List.sum_cons] at h2
        omega
      obtain ⟨j, hjl, hju, hjd, hje⟩ := ih (b + 1) target (cum + cb) h1' h2'
      refine ⟨j + 1, by simpa using hjl, ?_, ?_, ?_⟩
      · simpa [List.take_succ_cons, List.sum_cons, Nat.add_assoc] using hju
      · simpa [List.take_succ_cons, List.sum_cons, Nat.add_assoc] using hjd
      · rw [show percLoop (cb :: rest) b target cum =
            percLoop rest (b + 1) target (cum + cb) by simp [percLoop, hc], hje]
        rw [show b + 1 + j = b + (j + 1) by omega]

/-- C5 (amended): with n > 0 samples and p in (0, 1], `percentile(p)`
returns the upper bound `2^(b+1)` of the bucket `b` that contains the
`max(1, ⌊p·n⌋)`-th sample in increasing bucket order — the C++ truncating
cast floors `p·n`; the claim's `⌈p·n⌉` rank is refuted below — with the
result capped at `2^63` for the top bucket. -/
theorem percentile_floor_rank_spec (h : Pow2Histogram) (hlen : h.c.length = 64)
    (hsum : h.n = h.c.sum) (hn : 0 < h.n) (p : ℚ) (hp0 : 0 < p) (hp1 : p ≤ 1) :
    ∃ b : Nat, b < 64 ∧
      max 1 (p * (h.n : ℚ)).floor.toNat ≤ (h.c.take (b + 1)).sum ∧
      (h.c.take b).sum < max 1 (p * (h.n : ℚ)).floor.toNat ∧
      percentile h p = (if b = 63 then 2 ^ 63 else 2 ^ (b + 1)) := by
  have hne : ¬ h.n = 0 := by omega
  have hp0' : ¬ p < 0 := not_lt.mpr (le_of_lt hp0)
  have hp1' : ¬ 1 < p := not_lt.mpr hp1
  have hperc : percentile h p =
      percLoop h.c 0
        (if (p * (h.n : ℚ)).floor.toNat = 0 then 1 else (p * (h.n : ℚ)).floor.toNat) 0 := by
    simp only [percentile, if_neg hne, if_neg hp0', if_neg hp1']
  have ht0le : (p * (h.n : ℚ)).floor.toNat ≤ h.n := by
    rw [ratFloor_eq_intFloor]
    rw [Int.toNat_le]
    calc ⌊p * (h.n : ℚ)⌋ ≤ ⌊((h.n : ℚ))⌋ := by
          apply Int.floor_le_floor
          have hnn : (0 : ℚ) ≤ (h.n : ℚ) := by positivity
          calc p * (h.n : ℚ) ≤ 1 * (h.n : ℚ) := by
                exact mul_le_mul_of_nonneg_right hp1 hnn
            _ = (h.n : ℚ) := one_mul _
      _ = (h.n : Int) := Int.floor_natCast _
  have hmax : max 1 (p * (h.n : ℚ)).floor.toNat =
      (if (p * (h.n : ℚ)).floor.toNat = 0 then 1 else (p * (h.n : ℚ)).floor.toNat) := by
    by_cases h0 : (p * (h.n : ℚ)).floor.toNat = 0 <;> simp [h0] <;> omega
  rw [hmax]
  have htpos : 0 < (if (p * (h.n : ℚ)).floor.toNat = 0 then 1
      else (p * (h.n : ℚ)).floor.toNat) := by
    by_cases h0 : (p * (h.n : ℚ)).floor.toNat = 0 <;> simp [h0] <;> omega
  have htle : (if (p * (h.n : ℚ)).floor.toNat = 0 then 1
      else (p * (h.n : ℚ)).floor.toNat) ≤ 0 + h.c.sum := by
    rw [Nat.zero_add, ← hsum]
    by_cases h0 : (p * (h.n : ℚ)).floor.toNat = 0 <;> simp [h0] <;> omega
  obtain ⟨j, hjl, hju, hjd, hje⟩ := percLoop_spec h.c 0 _ 0 htpos htle
  refine ⟨j, hlen ▸ hjl, by simpa using hju, by simpa using hjd, ?_⟩
  rw [hperc, hje]
  have hj64 : j < 64 := hlen ▸ hjl
  by_cases hj : j = 63
  · simp [hj]
  · have : ¬ 63 ≤ 0 + j := by omega
    rw [if_neg this, if_neg hj, Nat.zero_add]

/-- C5 witness: the amended statement instantiated at the concrete
histogram with samples 1, 40, 40 and p = 1/2. -/
theorem percentile_floor_rank_spec_witness :
    (hC5.c.length = 64 ∧ hC5.n = hC5.c.sum ∧ 0 < hC5.n ∧
        0 < (1 : ℚ)/2 ∧ (1 : ℚ)/2 ≤ 1) ∧
      ∃ b : Nat, b < 64 ∧
        max 1 ((1 : ℚ)/2 * (hC5.n : ℚ)).floor.toNat ≤ (hC5.c.take (b + 1)).sum ∧
        (hC5.c.take b).sum < max 1 ((1 : ℚ)/2 * (hC5.n : ℚ)).floor.toNat ∧
        percentile hC5 ((1 : ℚ)/2) = (if b = 63 then 2 ^ 63 else 2 ^ (b + 1)) :=
  ⟨⟨by decide, by decide, by decide, by norm_num, by norm_num⟩,
   percentile_floor_rank_spec hC5 (by decide) (by decide) (by decide) ((1 : ℚ)/2)
     (by norm_num) (by norm_num)⟩

/-- C5 counterexample: at the histogram with samples 1, 40, 40 and
p = 1/2, the `⌈p·n⌉`-th sample (the 2nd) lies in bucket 5, whose upper
bound is 64, but `percentile` returns 2 — the code floors `p·n`. -/
theorem percentile_ceil_counterexample :
    percentile hC5 ((1 : ℚ)/2) = 2 ∧ claimPercentile hC5 ((1 : ℚ)/2) = 64 ∧
      percentile hC5 ((1 : ℚ)/2) ≠ claimPercentile hC5 ((1 : ℚ)/2) := by
  have hn3 : (hC5.n : ℚ) = 3 := by norm_num [show hC5.n = 3 from rfl]
  have hne : ¬ hC5.n = 0 := by decide
  have hc0 : ¬ (1 : ℚ)/2 < 0 := by norm_num
  have hc1 : ¬ (1 : ℚ) < 1/2 := by norm_num
  have hfloor : ((1 : ℚ)/2 * (hC5.n : ℚ)).floor.toNat = 1 := by
    rw [hn3]
    norm_num [Rat.floor]
  have hceil : ((1 : ℚ)/2 * (hC5.n : ℚ)).ceil.toNat = 2 := by
    rw [hn3]
    norm_num [Rat.ceil]
    decide
  have e1 : percentile hC5 ((1 : ℚ)/2) = 2 := by
    simp only [percentile, if_neg hne, if_neg hc0, if_neg hc1, hfloor]
    decide
  have e2 : claimPercentile hC5 ((1 : ℚ)/2) = 64 := by
    simp only [claimPercentile, if_neg hne, if_neg hc0, if_neg hc1, hceil]
    decide
  exact ⟨e1, e2, by rw [e1, e2]; decide⟩

/-! ## Theorems: WebSocket control plane (C7) -/

theorem applySymbolUpdate_depth (st : WsSession) (s : List Char) :
    (applySymbolUpdate st s).depth = st.depth := by
  simp only [applySymbolUpdate]
  cases hp : parse_string_value_after_key s ("symbol".toList) with
  | none => rfl
  | some sym => by_cases h : sym = [] <;> simp [h]

theorem applySymbolUpdate_push (st : WsSession) (s : List Char) :
    (applySymbolUpdate st s).push_ms = st.push_ms := by
  simp only [applySymbolUpdate]
  cases hp : parse_string_value_after_key s ("symbol".toList) with
  | none => rfl
  | some sym => by_cases h : sym = [] <;> simp [h]

theorem applyDepthUpdate_push (st : WsSession) (s : List Char) :
    (applyDepthUpdate st s).push_ms = st.push_ms := by
  simp only [applyDepthUpdate]
  cases hp : parse_int_value_after_key s ("depth".toList) with
  | none => rfl
  | some d => by_cases h : 0 < d ∧ d ≤ 200 <;> simp [h]

theorem applyDepthUpdate_bounds (st : WsSession) (s : List Char)
    (h1 : 1 ≤ st.depth) (h2 : st.depth ≤ 200) :
    1 ≤ (applyDepthUpdate st s).depth ∧ (applyDepthUpdate st s).depth ≤ 200 := by
  simp only [applyDepthUpdate]
  cases hp : parse_int_value_after_key s ("depth".toList) with
  | none => exact ⟨h1, h2⟩
  | some d =>
    by_cases h : 0 < d ∧ d ≤ 200
    · simp only [if_pos h]
      exact ⟨by omega, h.2⟩
    · simp only [if_neg h]
      exact ⟨h1, h2⟩

theorem applyPushMsUpdate_depth (st : WsSession) (s : List Char) :
    (applyPushMsUpdate st s).depth = st.depth := by
  simp only [applyPushMsUpdate]
  cases hp : parse_int_value_after_key s ("push_ms".toList) with
  | none => rfl
  | some pm => simp

theorem applyPushMsUpdate_bounds (st : WsSession) (s : List Char)
    (h1 : 10 ≤ st.push_ms) (h2 : st.push_ms ≤ 5000) :
    10 ≤ (applyPushMsUpdate st s).push_ms ∧ (applyPushMsUpdate st s).push_ms ≤ 5000 := by
  simp only [applyPushMsUpdate]
  cases hp : parse_int_value_after_key s ("push_ms".toList) with
  | none => exact ⟨h1, h2⟩
  | some pm =>
    by_cases ha : pm < 10 <;> by_cases hb : (5000 : Int) < 10 <;>
      simp [ha, hb] <;> omega

/-- C7: a control frame whose `type` parses to `subscribe` or `update` has
its optional `symbol` / `depth` / `push_ms` updates applied with `depth`
kept in `[1, 200]` and `push_ms` kept in `[10, 5000]`, and the session
replies with exactly one acknowledgment frame carrying the post-update
values; any other frame leaves the session unchanged and produces no
reply. -/
theorem ws_control_ack_spec (st : WsSession) (msg : String)
    (hd1 : 1 ≤ st.depth) (hd2 : st.depth ≤ 200)
    (hp1 : 10 ≤ st.push_ms) (hp2 : st.push_ms ≤ 5000) :
    ((parse_control_message st msg).1 = true ↔
      ∃ ty, parse_string_value_after_key msg.toList ("type".toList) = some ty ∧
        (ty = ("subscribe".toList) ∨ ty = ("update".toList))) ∧
    (1 ≤ (on_read st msg).1.depth ∧ (on_read st msg).1.depth ≤ 200) ∧
    (10 ≤ (on_read st msg).1.push_ms ∧ (on_read st msg).1.push_ms ≤ 5000) ∧
    ((parse_control_message st msg).1 = true →
      (on_read st msg).2 =
        [make_ack_json (on_read st msg).1.symbol (on_read st msg).1.depth
          (on_read st msg).1.push_ms]) ∧
    ((parse_control_message st msg).1 = false →
      (on_read st msg).1 = st ∧ (on_read st msg).2 = []) := by
  cases hty : parse_string_value_after_key msg.toList ("type".toList) with
  | none =>
    have hpcm : parse_control_message st msg = (false, st) := by
      simp only [parse_control_message, hty]
    have hor : on_read st msg = (st, []) := by simp [on_read, hpcm]
    refine ⟨?_, ?_, ?_, ?_, ?_⟩
    · simp [hpcm, hty]
    · rw [hor]; exact ⟨hd1, hd2⟩
    · rw [hor]; exact ⟨hp1, hp2⟩
    · intro h; rw [hpcm] at h; simp at h
    · intro _; rw [hor]; exact ⟨rfl, rfl⟩
  | some ty =>
    by_cases htyv : ty ≠ ("subscribe".toList) ∧ ty ≠ ("update".toList)
    · have hpcm : parse_control_message st msg = (false, st) := by
        simp only [parse_control_message, hty]
        rw [if_pos htyv]
      have hor : on_read st msg = (st, []) := by simp [on_read, hpcm]
      refine ⟨?_, ?_, ?_, ?_, ?_⟩
      · rw [hpcm]
        simp only [hty]
        constructor
        · intro h; simp at h
        · rintro ⟨ty', hsome, hor'⟩
          rw [Option.some_inj] at hsome
          subst hsome
          rcases hor' with h | h
          · exact absurd h htyv.1
          · exact absurd h htyv.2
      · rw [hor]; exact ⟨hd1, hd2⟩
      · rw [hor]; exact ⟨hp1, hp2⟩
      · intro h; rw [hpcm] at h; simp at h
      · intro _; rw [hor]; exact ⟨rfl, rfl⟩
    · have hpcm : parse_control_message st msg =
          (true, applyPushMsUpdate
            (applyDepthUpdate (applySymbolUpdate st msg.toList) msg.toList) msg.toList) := by
        simp only [parse_control_message, hty]
        rw [if_neg htyv]
      have hor : on_read st msg =
          (applyPushMsUpdate
            (applyDepthUpdate (applySymbolUpdate st msg.toList) msg.toList) msg.toList,
           [make_ack_json
              (applyPushMsUpdate (applyDepthUpdate (applySymbolUpdate st msg.toList)
                msg.toList) msg.toList).symbol
              (applyPushMsUpdate (applyDepthUpdate (applySymbolUpdate st msg.toList)
                msg.toList) msg.toList).depth
              (applyPushMsUpdate (applyDepthUpdate (applySymbolUpdate st msg.toList)
                msg.toList) msg.toList).push_ms]) := by
        simp [on_read, hpcm]
      have hdb : 1 ≤ (applyDepthUpdate (applySymbolUpdate st msg.toList) msg.toList).depth ∧
          (applyDepthUpdate (applySymbolUpdate st msg.toList) msg.toList).depth ≤ 200 := by
        apply applyDepthUpdate_bounds
        · rw [applySymbolUpdate_depth]; exact hd1
        · rw [applySymbolUpdate_depth]; exact hd2
      have hpb : 10 ≤ (applyPushMsUpdate
            (applyDepthUpdate (applySymbolUpdate st msg.toList) msg.toList) msg.toList).push_ms ∧
          (applyPushMsUpdate
            (applyDepthUpdate (applySymbolUpdate st msg.toList) msg.toList) msg.toList).push_ms
            ≤ 5000 := by
        apply applyPushMsUpdate_bounds
        · rw [applyDepthUpdate_push, applySymbolUpdate_push]; exact hp1
        · rw [applyDepthUpdate_push, applySymbolUpdate_push]; exact hp2
      refine ⟨?_, ?_, ?_, ?_, ?_⟩
      · rw [hpcm]
        simp only [hty, true_iff]
        refine ⟨ty, rfl, ?_⟩
        by_cases hsub : ty = ("subscribe".toList)
        · exact Or.inl hsub
        · right
          by_cases hupd : ty = ("update".toList)
          · exact hupd
          · exact absurd ⟨hsub, hupd⟩ htyv
      · rw [hor]
        simpa [applyPushMsUpdate_depth] using hdb
      · rw [hor]
        exact hpb
      · intro _; rw [hor]
      · intro h; rw [hpcm] at h; simp at h

/-- C7 witness: the default session receives an `update` frame setting
depth 20 and push_ms 7 (clamped to 10). -/
theorem ws_control_ack_spec_witness :
    (1 ≤ stW.depth ∧ stW.depth ≤ 200 ∧ 10 ≤ stW.push_ms ∧ stW.push_ms ≤ 5000) ∧
      (((parse_control_message stW msgW).1 = true ↔
        ∃ ty, parse_string_value_after_key msgW.toList ("type".toList) = some ty ∧
          (ty = ("subscribe".toList) ∨ ty = ("update".toList))) ∧
      (1 ≤ (on_read stW msgW).1.depth ∧ (on_read stW msgW).1.depth ≤ 200) ∧
      (10 ≤ (on_read stW msgW).1.push_ms ∧ (on_read stW msgW).1.push_ms ≤ 5000) ∧
      ((parse_control_message stW msgW).1 = true →
        (on_read stW msgW).2 =
          [make_ack_json (on_read stW msgW).1.symbol (on_read stW msgW).1.depth
            (on_read stW msgW).1.push_ms]) ∧
      ((parse_control_message stW msgW).1 = false →
        (on_read stW msgW).1 = stW ∧ (on_read stW msgW).2 = [])) :=
  ⟨⟨by decide, by decide, by decide, by decide⟩,
   ws_control_ack_spec stW msgW (by decide) (by decide) (by decide) (by decide)⟩

/-! ## Theorems: order-book side and index surgery -/

theorem sideLt_irrefl (buy : Bool) (a : Int) : sideLt buy a a = false := by
  cases buy <;> simp [sideLt]

theorem sideLt_asymm (buy : Bool) {a b : Int} (h : sideLt buy a b = true) :
    sideLt buy b a = false := by
  cases buy <;> simp_all [sideLt] <;> omega

theorem sideLt_total (buy : Bool) {a b : Int} (h : ¬ a = b) :
    sideLt buy a b = true ∨ sideLt buy b a = true := by
  cases buy <;> simp [sideLt] <;> omega

theorem sideLt_trans (buy : Bool) {a b c : Int} (h1 : sideLt buy a b = true)
    (h2 : sideLt buy b c = true) : sideLt buy a c = true := by
  cases buy <;> simp_all [sideLt] <;> omega

theorem mapFind_append (A B : Side) (k : Int) :
    mapFind (A ++ B) k =
      (match mapFind A k with
       | some l => some l
       | none => mapFind B k) := by
  induction A with
  | nil => simp [mapFind]
  | cons hd t ih =>
    obtain ⟨p, l⟩ := hd
    by_cases h : p = k <;> simp [mapFind, h, ih]

theorem mapFind_eq_none_iff (s : Side) (k : Int) :
    mapFind s k = none ↔ k ∉ s.map Prod.fst := by
  induction s with
  | nil => simp [mapFind]
  | cons hd t ih =>
    obtain ⟨p, l⟩ := hd
    by_cases h : p = k
    · subst h
      simp [mapFind]
    · simp only [mapFind, if_neg h, List.map_cons, List.mem_cons, ih]
      constructor
      · intro hk hor
        rcases hor with he | hm
        · exact h he.symm
        · exact hk hm
      · intro hk hm
        exact hk (Or.inr hm)

theorem mapFind_mem {s : Side} {k : Int} {l : Level} (h : mapFind s k = some l) :
    (k, l) ∈ s := by
  induction s with
  | nil => simp [mapFind] at h
  | cons hd t ih =>
    obtain ⟨p, l'⟩ := hd
    by_cases hp : p = k
    · subst hp
      have he : l' = l := by simpa [mapFind] using h
      subst he
      exact List.mem_cons_self _ _
    · simp only [mapFind, if_neg hp] at h
      exact List.mem_cons_of_mem _ (ih h)

theorem mapFind_of_mem_nodup {s : Side} (hnd : (s.map Prod.fst).Nodup)
    {k : Int} {l : Level} (h : (k, l) ∈ s) : mapFind s k = some l := by
  induction s with
  | nil => simp at h
  | cons hd t ih =>
    obtain ⟨p, l'⟩ := hd
    simp only [List.map_cons, List.nodup_cons] at hnd
    rcases List.mem_cons.mp h with he | hm
    · rw [Prod.mk.injEq] at he
      obtain ⟨rfl, rfl⟩ := he
      simp [mapFind]
    · have hk : k ∈ t.map Prod.fst := List.mem_map_of_mem Prod.fst hm
      have hp : ¬ p = k := fun he2 => hnd.1 (he2 ▸ hk)
      simp only [mapFind, if_neg hp]
      exact ih hnd.2 hm

theorem mapFind_decomp {s : Side} (hnd : (s.map Prod.fst).Nodup)
    {k : Int} {lvl : Level} (h : mapFind s k = some lvl) :
    ∃ S1 S2, s = S1 ++ (k, lvl) :: S2 ∧
      k ∉ S1.map Prod.fst ∧ k ∉ S2.map Prod.fst := by
  induction s with
  | nil => simp [mapFind] at h
  | cons hd t ih =>
    obtain ⟨p, l'⟩ := hd
    simp only [List.map_cons, List.nodup_cons] at hnd
    by_cases hp : p = k
    · subst hp
      have he : l' = lvl := by simpa [mapFind] using h
      subst he
      refine ⟨[], t, rfl, by simp, fun hk => hnd.1 hk⟩
    · simp only [mapFind, if_neg hp] at h
      obtain ⟨S1, S2, hs, h1, h2⟩ := ih hnd.2 h
      refine ⟨(p, l') :: S1, S2, by rw [hs]; simp, ?_, h2⟩
      simp only [List.map_cons, List.mem_cons]
      intro hor
      rcases hor with he | hm
      · exact hp he.symm
      · exact h1 hm

theorem setLevel_append {S1 : Side} {k : Int} (h1 : k ∉ S1.map Prod.fst)
    (lvl lvl' : Level) (S2 : Side) :
    setLevel (S1 ++ (k, lvl) :: S2) k lvl' = S1 ++ (k, lvl') :: S2 := by
  induction S1 with
  | nil => simp [setLevel]
  | cons hd t ih =>
    obtain ⟨p, l⟩ := hd
    simp only [List.map_cons, List.mem_cons] at h1
    have hp : ¬ p = k := fun he => h1 (Or.inl he.symm)
    simp only [List.cons_append, setLevel, if_neg hp, List.append_eq]
    rw [ih (fun hm => h1 (Or.inr hm))]

theorem eraseKey_append {S1 : Side} {k : Int} (h1 : k ∉ S1.map Prod.fst)
    (lvl : Level) (S2 : Side) :
    eraseKey (S1 ++ (k, lvl) :: S2) k = S1 ++ S2 := by
  induction S1 with
  | nil => simp [eraseKey]
  | cons hd t ih =>
    obtain ⟨p, l⟩ := hd
    simp only [List.map_cons, List.mem_cons] at h1
    have hp : ¬ p = k := fun he => h1 (Or.inl he.symm)
    simp only [List.cons_append, eraseKey, if_neg hp, List.append_eq]
    rw [ih (fun hm => h1 (Or.inr hm))]

theorem eraseFromLevel_append {S1 : Side} {k : Int} (h1 : k ∉ S1.map Prod.fst)
    (lvl : Level) (S2 : Side) (oid : Int) :
    eraseFromLevel (S1 ++ (k, lvl) :: S2) k oid =
      S1 ++ (if eraseOrder oid lvl = [] then S2
             else (k, eraseOrder oid lvl) :: S2) := by
  induction S1 with
  | nil => simp [eraseFromLevel]
  | cons hd t ih =>
    obtain ⟨p, l⟩ := hd
    simp only [List.map_cons, List.mem_cons] at h1
    have hp : ¬ p = k := fun he => h1 (Or.inl he.symm)
    simp only [List.cons_append, eraseFromLevel, if_neg hp, List.append_eq]
    rw [ih (fun hm => h1 (Or.inr hm))]

theorem eraseFromLevel_not_mem {s : Side} {k : Int} (h : k ∉ s.map Prod.fst)
    (oid : Int) : eraseFromLevel s k oid = s := by
  induction s with
  | nil => rfl
  | cons hd t ih =>
    obtain ⟨p, l⟩ := hd
    simp only [List.map_cons, List.mem_cons] at h
    have hp : ¬ p = k := fun he => h (Or.inl he.symm)
    simp only [eraseFromLevel, if_neg hp]
    rw [ih (fun hm => h (Or.inr hm))]

theorem appendAtLevel_append_mem (lt : Int → Int → Bool) {S1 : Side} {k : Int}
    (hS1 : ∀ p ∈ S1.map Prod.fst, ¬ p = k ∧ lt k p = false)
    (lvl : Level) (S2 : Side) (o : Order) :
    appendAtLevel lt (S1 ++ (k, lvl) :: S2) k o = S1 ++ (k, lvl ++ [o]) :: S2 := by
  induction S1 with
  | nil => simp [appendAtLevel]
  | cons hd t ih =>
    obtain ⟨p, l⟩ := hd
    have hp1 : ¬ p = k := (hS1 p (by simp)).1
    have hp2 : lt k p = false := (hS1 p (by simp)).2
    simp only [List.cons_append, appendAtLevel, if_neg hp1, hp2, List.append_eq,
      Bool.false_eq_true, if_false]
    rw [ih (fun q hq => hS1 q (by simp [hq]))]

theorem mem_appendAtLevel (lt : Int → Int → Bool) {s : Side} {k : Int} {o : Order}
    {x : Int × Level} (hx : x ∈ appendAtLevel lt s k o) : x ∈ s ∨ x.1 = k := by
  induction s with
  | nil =>
    simp only [appendAtLevel, List.mem_singleton] at hx
    right
    rw [hx]
  | cons hd t ih =>
    obtain ⟨p, l⟩ := hd
    by_cases hp : p = k
    · simp only [appendAtLevel, if_pos hp, List.mem_cons] at hx
      rcases hx with he | hm
      · right; rw [he, hp]
      · exact Or.inl (List.mem_cons_of_mem _ hm)
    · simp only [appendAtLevel, if_neg hp] at hx
      by_cases hlt : lt k p
      · rw [if_pos hlt] at hx
        rcases List.mem_cons.mp hx with he | hm
        · right; rw [he]
        · exact Or.inl hm
      · rw [if_neg hlt] at hx
        rcases List.mem_cons.mp hx with he | hm
        · exact Or.inl (by rw [he]; exact List.mem_cons_self _ _)
        · rcases ih hm with h1 | h2
          · exact Or.inl (List.mem_cons_of_mem _ h1)
          · exact Or.inr h2

theorem appendAtLevel_mapFind_ne (lt : Int → Int → Bool) {s : Side} {k p : Int}
    (hp : ¬ p = k) (o : Order) :
    mapFind (appendAtLevel lt s k o) p = mapFind s p := by
  induction s with
  | nil =>
    simp only [appendAtLevel, mapFind]
    rw [if_neg (fun he => hp he.symm)]
  | cons hd t ih =>
    obtain ⟨q, l⟩ := hd
    by_cases hq : q = k
    · subst hq
      simp only [appendAtLevel, if_pos rfl, mapFind]
      rw [if_neg (fun he => hp (he.symm)), if_neg (fun he => hp (he.symm))]
    · simp only [appendAtLevel, if_neg hq]
      by_cases hlt : lt k q = true
      · rw [if_pos hlt]
        simp only [mapFind]
        rw [if_neg (fun he => hp he.symm)]
      · rw [if_neg hlt]
        by_cases hqp : q = p
        · simp [mapFind, hqp]
        · simp only [mapFind, if_neg hqp]
          exact ih

theorem appendAtLevel_mapFind_self (lt : Int → Int → Bool)
    (hasym : ∀ a b : Int, lt a b = true → lt b a = false) {s : Side}
    (hs : s.Pairwise (fun x y => lt x.1 y.1 = true)) (k : Int) (o : Order) :
    mapFind (appendAtLevel lt s k o) k =
      some ((match mapFind s k with
             | some l => l
             | none => []) ++ [o]) := by
  induction s with
  | nil => simp [appendAtLevel, mapFind]
  | cons hd t ih =>
    obtain ⟨q, l⟩ := hd
    rw [List.pairwise_cons] at hs
    by_cases hq : q = k
    · subst hq
      simp [appendAtLevel, mapFind]
    · simp only [appendAtLevel, if_neg hq]
      by_cases hlt : lt k q = true
      · rw [if_pos hlt]
        have hnone : mapFind t k = none := by
          rw [mapFind_eq_none_iff]
          intro hk
          obtain ⟨x, hx, hxk⟩ := List.mem_map.mp hk
          have hqx := hs.1 x hx
          rw [hxk] at hqx
          have h2 := hasym q k hqx
          rw [h2] at hlt
          simp at hlt
        simp [mapFind, hq, hnone]
      · rw [if_neg hlt]
        simp only [mapFind, if_neg hq]
        exact ih hs.2

theorem appendAtLevel_sorted (lt : Int → Int → Bool)
    (htrans : ∀ a b c : Int, lt a b = true → lt b c = true → lt a c = true)
    (htot : ∀ a b : Int, ¬ a = b → lt a b = true ∨ lt b a = true)
    {s : Side} (hs : s.Pairwise (fun x y => lt x.1 y.1 = true)) (k : Int) (o : Order) :
    (appendAtLevel lt s k o).Pairwise (fun x y => lt x.1 y.1 = true) := by
  induction s with
  | nil => simp [appendAtLevel]
  | cons hd t ih =>
    obtain ⟨q, l⟩ := hd
    rw [List.pairwise_cons] at hs
    by_cases hq : q = k
    · subst hq
      simp only [appendAtLevel, eq_self_iff_true, if_true]
      rw [List.pairwise_cons]
      exact ⟨hs.1, hs.2⟩
    · simp only [appendAtLevel, if_neg hq]
      by_cases hlt : lt k q = true
      · rw [if_pos hlt, List.pairwise_cons]
        constructor
        · intro y hy
          rcases List.mem_cons.mp hy with he | hm
          · rw [he]
            exact hlt
          · exact htrans k q y.1 hlt (hs.1 y hm)
        · rw [List.pairwise_cons]
          exact ⟨hs.1, hs.2⟩
      · rw [if_neg hlt, List.pairwise_cons]
        constructor
        · intro y hy
          rcases mem_appendAtLevel lt hy with hm | hk
          · exact hs.1 y hm
          · rw [hk]
            rcases htot q k hq with h1 | h2
            · exact h1
            · rw [h2] at hlt
              simp at hlt
        · exact ih hs.2

theorem appendAtLevel_levels (lt : Int → Int → Bool) {s : Side}
    (hl : ∀ pl ∈ s, pl.2 ≠ [] ∧ ∀ o' ∈ pl.2, o'.price = pl.1)
    {k : Int} {o : Order} (ho : o.price = k) :
    ∀ pl ∈ appendAtLevel lt s k o, pl.2 ≠ [] ∧ ∀ o' ∈ pl.2, o'.price = pl.1 := by
  induction s with
  | nil =>
    intro pl hpl
    simp only [appendAtLevel, List.mem_singleton] at hpl
    subst hpl
    exact ⟨by simp, by simpa using ho⟩
  | cons hd t ih =>
    obtain ⟨q, l⟩ := hd
    by_cases hq : q = k
    · subst hq
      simp only [appendAtLevel, eq_self_iff_true, if_true]
      intro pl hpl
      rcases List.mem_cons.mp hpl with he | hm
      · subst he
        have hql := hl (q, l) (List.mem_cons_self _ _)
        refine ⟨by simp, ?_⟩
        intro o' ho'
        rcases List.mem_append.mp ho' with h1 | h2
        · exact hql.2 o' h1
        · rw [List.mem_singleton] at h2
          subst h2
          exact ho
      · exact hl pl (List.mem_cons_of_mem _ hm)
    · simp only [appendAtLevel, if_neg hq]
      by_cases hlt : lt k q = true
      · rw [if_pos hlt]
        intro pl hpl
        rcases List.mem_cons.mp hpl with he | hm
        · subst he
          exact ⟨by simp, by simpa using ho⟩
        · exact hl pl hm
      · rw [if_neg hlt]
        intro pl hpl
        rcases List.mem_cons.mp hpl with he | hm
        · subst he
          exact hl (q, l) (List.mem_cons_self _ _)
        · exact ih (fun pl2 h2 => hl pl2 (List.mem_cons_of_mem _ h2)) pl hm

theorem sideEntries_append (buy : Bool) (A B : Side) :
    sideEntries buy (A ++ B) = sideEntries buy A ++ sideEntries buy B := by
  induction A with
  | nil => simp [sideEntries]
  | cons hd t ih =>
    obtain ⟨p, l⟩ := hd
    simp [sideEntries, ih, List.append_assoc]

theorem levelEntries_map_fst (buy : Bool) (p : Int) (lvl : Level) :
    (levelEntries buy p lvl).map Prod.fst = lvl.map Order.order_id := by
  induction lvl with
  | nil => rfl
  | cons a t ih => simp [levelEntries, List.map_cons] at ih ⊢

theorem levelEntries_setQty (buy : Bool) (p : Int) (oid q : Int) (lvl : Level) :
    levelEntries buy p (setQty oid q lvl) = levelEntries buy p lvl := by
  induction lvl with
  | nil => rfl
  | cons a t ih =>
    by_cases ha : a.order_id = oid <;> simp [setQty, ha, levelEntries] <;>
      simpa [levelEntries] using ih

theorem appendAtLevel_entries (lt : Int → Int → Bool) (buy : Bool) {s : Side}
    (k : Int) (o : Order) :
    (sideEntries buy (appendAtLevel lt s k o)).Perm
      ((o.order_id, { is_buy := buy, price := k }) :: sideEntries buy s) := by
  induction s with
  | nil => simp [appendAtLevel, sideEntries, levelEntries]
  | cons hd t ih =>
    obtain ⟨q, l⟩ := hd
    by_cases hq : q = k
    · subst hq
      simp only [appendAtLevel, eq_self_iff_true, if_true, sideEntries, levelEntries,
        List.map_append]
      rw [List.append_assoc]
      simp only [List.map_cons, List.map_nil, List.singleton_append]
      exact List.perm_middle
    · simp only [appendAtLevel, if_neg hq]
      by_cases hlt : lt k q = true
      · rw [if_pos hlt]
        simp [sideEntries, levelEntries]
      · rw [if_neg hlt]
        simp only [sideEntries]
        exact List.Perm.trans (List.Perm.append_left _ ih) List.perm_middle

theorem findOrder_decomp {lvl : Level} {oid : Int} {o : Order}
    (h : findOrder oid lvl = some o) :
    ∃ pre post, lvl = pre ++ o :: post ∧ (∀ x ∈ pre, ¬ x.order_id = oid) ∧
      o.order_id = oid := by
  induction lvl with
  | nil => simp [findOrder] at h
  | cons a t ih =>
    by_cases ha : a.order_id = oid
    · have he : a = o := by simpa [findOrder, ha] using h
      subst he
      exact ⟨[], t, rfl, by simp, ha⟩
    · simp only [findOrder, if_neg ha] at h
      obtain ⟨pre, post, hd, hpre, hid⟩ := ih h
      refine ⟨a :: pre, post, by rw [hd]; rfl, ?_, hid⟩
      intro x hx
      rcases List.mem_cons.mp hx with he | hm
      · rw [he]
        exact ha
      · exact hpre x hm

theorem eraseOrder_append {pre : Level} {oid : Int}
    (hpre : ∀ x ∈ pre, ¬ x.order_id = oid) {o : Order} (ho : o.order_id = oid)
    (post : Level) : eraseOrder oid (pre ++ o :: post) = pre ++ post := by
  induction pre with
  | nil => simp [eraseOrder, ho]
  | cons a t ih =>
    have ha := hpre a (by simp)
    simp only [List.cons_append, eraseOrder, if_neg ha, List.append_eq]
    rw [ih (fun x hx => hpre x (by simp [hx]))]

theorem setQty_append {pre : Level} {oid : Int}
    (hpre : ∀ x ∈ pre, ¬ x.order_id = oid) {o : Order} (ho : o.order_id = oid)
    (q : Int) (post : Level) :
    setQty oid q (pre ++ o :: post) = pre ++ { o with qty := q } :: post := by
  induction pre with
  | nil => simp [setQty, ho]
  | cons a t ih =>
    have ha := hpre a (by simp)
    simp only [List.cons_append, setQty, if_neg ha, List.append_eq]
    rw [ih (fun x hx => hpre x (by simp [hx]))]

theorem findOrder_append {pre : Level} {oid : Int}
    (hpre : ∀ x ∈ pre, ¬ x.order_id = oid) {o : Order} (ho : o.order_id = oid)
    (post : Level) : findOrder oid (pre ++ o :: post) = some o := by
  induction pre with
  | nil => simp [findOrder, ho]
  | cons a t ih =>
    have ha := hpre a (by simp)
    simp only [List.cons_append, findOrder, if_neg ha, List.append_eq]
    exact ih (fun x hx => hpre x (by simp [hx]))

theorem idxFind_eq_none_iff (idx : Index) (k : Int) :
    idxFind idx k = none ↔ k ∉ idx.map Prod.fst := by
  induction idx with
  | nil => simp [idxFind]
  | cons hd t ih =>
    obtain ⟨a, v⟩ := hd
    by_cases h : a = k
    · subst h
      simp [idxFind]
    · simp only [idxFind, if_neg h, List.map_cons, List.mem_cons, ih]
      constructor
      · intro hk hor
        rcases hor with he | hm
        · exact h he.symm
        · exact hk hm
      · intro hk hm
        exact hk (Or.inr hm)

theorem idxFind_append (A B : Index) (k : Int) :
    idxFind (A ++ B) k =
      (match idxFind A k with
       | some v => some v
       | none => idxFind B k) := by
  induction A with
  | nil => simp [idxFind]
  | cons hd t ih =>
    obtain ⟨a, v⟩ := hd
    by_cases h : a = k <;> simp [idxFind, h, ih]

theorem idxErase_sublist (idx : Index) (k : Int) : (idxErase idx k).Sublist idx := by
  induction idx with
  | nil => simp [idxErase]
  | cons hd t ih =>
    obtain ⟨a, v⟩ := hd
    by_cases h : a = k
    · simp only [idxErase, if_pos h]
      exact List.sublist_cons_self _ _
    · simp only [idxErase, if_neg h]
      exact List.Sublist.cons₂ _ ih

theorem idxErase_keys_nodup {idx : Index} (h : (idx.map Prod.fst).Nodup) (k : Int) :
    ((idxErase idx k).map Prod.fst).Nodup :=
  h.sublist ((idxErase_sublist idx k).map Prod.fst)

theorem idxFind_idxErase_self {idx : Index} (hnd : (idx.map Prod.fst).Nodup) (k : Int) :
    idxFind (idxErase idx k) k = none := by
  induction idx with
  | nil => rfl
  | cons hd t ih =>
    obtain ⟨a, v⟩ := hd
    simp only [List.map_cons, List.nodup_cons] at hnd
    by_cases h : a = k
    · subst h
      simp only [idxErase, if_pos rfl]
      rw [idxFind_eq_none_iff]
      exact hnd.1
    · simp only [idxErase, if_neg h, idxFind, if_neg h]
      exact ih hnd.2

theorem idxFind_idxErase_ne {idx : Index} {k k' : Int} (h : ¬ k' = k) :
    idxFind (idxErase idx k) k' = idxFind idx k' := by
  induction idx with
  | nil => rfl
  | cons hd t ih =>
    obtain ⟨a, v⟩ := hd
    by_cases ha : a = k
    · subst ha
      rw [show idxErase ((a, v) :: t) a = t by simp [idxErase]]
      simp only [idxFind]
      rw [if_neg (fun he => h he.symm)]
    · simp only [idxErase, if_neg ha, idxFind]
      by_cases hk' : a = k'
      · simp [hk']
      · simp only [if_neg hk']
        exact ih

theorem idxSet_keys (idx : Index) (k : Int) (v : OrderRef) :
    (idxSet idx k v).map Prod.fst = idx.map Prod.fst := by
  induction idx with
  | nil => rfl
  | cons hd t ih =>
    obtain ⟨a, w⟩ := hd
    by_cases h : a = k <;> simp [idxSet, h, ih]

theorem idxFind_idxSet_self {idx : Index} {k : Int} (v : OrderRef) {w : OrderRef}
    (h : idxFind idx k = some w) : idxFind (idxSet idx k v) k = some v := by
  induction idx with
  | nil => simp [idxFind] at h
  | cons hd t ih =>
    obtain ⟨a, w'⟩ := hd
    by_cases ha : a = k
    · simp [idxSet, ha, idxFind]
    · simp only [idxFind, if_neg ha] at h
      simp only [idxSet, if_neg ha, idxFind, if_neg ha]
      exact ih h

theorem idxFind_idxSet_ne {idx : Index} {k k' : Int} (v : OrderRef) (h : ¬ k' = k) :
    idxFind (idxSet idx k v) k' = idxFind idx k' := by
  induction idx with
  | nil => rfl
  | cons hd t ih =>
    obtain ⟨a, w⟩ := hd
    by_cases ha : a = k
    · subst ha
      rw [show idxSet ((a, w) :: t) a v = (a, v) :: t by simp [idxSet]]
      simp only [idxFind]
      rw [if_neg (fun he => h he.symm), if_neg (fun he => h he.symm)]
    · simp only [idxSet, if_neg ha, idxFind]
      by_cases hk' : a = k'
      · simp [hk']
      · simp only [if_neg hk']
        exact ih

theorem idxEmplace_of_none {idx : Index} {k : Int} (v : OrderRef)
    (h : idxFind idx k = none) : idxEmplace idx k v = idx ++ [(k, v)] := by
  simp [idxEmplace, h]

theorem side_setSide_self (b : Book) (buy : Bool) (s : Side) :
    (b.setSide buy s).side buy = s := by
  cases buy <;> simp [Book.side, Book.setSide]

theorem side_setSide_not (b : Book) (buy : Bool) (s : Side) :
    (b.setSide buy s).side (!buy) = b.side (!buy) := by
  cases buy <;> simp [Book.side, Book.setSide]

theorem setSide_index (b : Book) (buy : Bool) (s : Side) :
    (b.setSide buy s).index = b.index := by
  cases buy <;> simp [Book.setSide]

theorem side_withIndex (b : Book) (i : Index) (buy : Bool) :
    ({ b with index := i } : Book).side buy = b.side buy := by
  cases buy <;> simp [Book.side]

theorem bookEntries_withIndex (b : Book) (i : Index) :
    bookEntries { b with index := i } = bookEntries b := rfl

theorem bookEntries_setSide_perm (b : Book) (buy : Bool) (s : Side) :
    (bookEntries (b.setSide buy s)).Perm
      (sideEntries buy s ++ sideEntries (!buy) (b.side (!buy))) := by
  cases buy
  · exact List.perm_append_comm
  · exact List.Perm.refl _

theorem bookEntries_perm (b : Book) (buy : Bool) :
    (bookEntries b).Perm
      (sideEntries buy (b.side buy) ++ sideEntries (!buy) (b.side (!buy))) := by
  cases buy
  · exact List.perm_append_comm
  · exact List.Perm.refl _

theorem mem_sideEntries_elim {buy : Bool} {s : Side} {oid : Int} {r : OrderRef}
    (h : (oid, r) ∈ sideEntries buy s) :
    r.is_buy = buy ∧ ∃ lvl, (r.price, lvl) ∈ s ∧ ∃ o ∈ lvl, o.order_id = oid := by
  induction s with
  | nil => simp [sideEntries] at h
  | cons hd t ih =>
    obtain ⟨p, l⟩ := hd
    simp only [sideEntries] at h
    rcases List.mem_append.mp h with h1 | h2
    · obtain ⟨o, ho, hoe⟩ := List.mem_map.mp h1
      rw [Prod.mk.injEq] at hoe
      obtain ⟨h3, h4⟩ := hoe
      subst h4
      exact ⟨rfl, l, List.mem_cons_self _ _, o, ho, h3⟩
    · obtain ⟨hb, lvl, hm, o, ho, hid⟩ := ih h2
      exact ⟨hb, lvl, List.mem_cons_of_mem _ hm, o, ho, hid⟩

theorem mem_sideEntries_intro {buy : Bool} {s : Side} {p : Int} {lvl : Level}
    {o : Order} (hm : (p, lvl) ∈ s) (ho : o ∈ lvl) :
    (o.order_id, ({ is_buy := buy, price := p } : OrderRef)) ∈ sideEntries buy s := by
  induction s with
  | nil => simp at hm
  | cons hd t ih =>
    obtain ⟨q, l⟩ := hd
    simp only [sideEntries, List.mem_append]
    rcases List.mem_cons.mp hm with he | hmt
    · rw [Prod.mk.injEq] at he
      obtain ⟨h1, h2⟩ := he
      subst h1
      subst h2
      exact Or.inl (List.mem_map_of_mem _ ho)
    · exact Or.inr (ih hmt)

theorem pairwise_keys_nodup {lt : Int → Int → Bool} (hirr : ∀ a, lt a a = false)
    {s : Side} (hp : s.Pairwise (fun x y => lt x.1 y.1 = true)) :
    (s.map Prod.fst).Nodup := by
  show (s.map Prod.fst).Pairwise (fun a b => a ≠ b)
  rw [List.pairwise_map]
  refine hp.imp ?_
  intro a b h he
  rw [he, hirr] at h
  simp at h

theorem WF.side_wf {b : Book} (w : WF b) (buy : Bool) :
    SideWF (sideLt buy) (b.side buy) := by
  cases buy
  · exact w.asks_wf
  · exact w.bids_wf

theorem WF.side_keys_nodup {b : Book} (w : WF b) (buy : Bool) :
    ((b.side buy).map Prod.fst).Nodup :=
  pairwise_keys_nodup (sideLt_irrefl buy) (w.side_wf buy).1

theorem findOrder_some_of_mem {lvl : Level} {oid : Int} {o : Order}
    (hm : o ∈ lvl) (hid : o.order_id = oid) :
    ∃ o', findOrder oid lvl = some o' ∧ o' ∈ lvl ∧ o'.order_id = oid := by
  induction lvl with
  | nil => simp at hm
  | cons a t ih =>
    by_cases ha : a.order_id = oid
    · exact ⟨a, by simp [findOrder, ha], List.mem_cons_self _ _, ha⟩
    · rcases List.mem_cons.mp hm with he | hmt
      · subst he
        exact absurd hid ha
      · obtain ⟨o', h1, h2, h3⟩ := ih hmt
        exact ⟨o', by simp [findOrder, ha, h1], List.mem_cons_of_mem _ h2, h3⟩

theorem WF.locate {b : Book} (w : WF b) {oid : Int} {ref : OrderRef}
    (h : idxFind b.index oid = some ref) :
    ∃ lvl o, mapFind (b.side ref.is_buy) ref.price = some lvl ∧
      findOrder oid lvl = some o ∧ o.order_id = oid ∧ o.price = ref.price := by
  have hmem := (w.idx_iff oid ref).mp h
  rw [bookEntries] at hmem
  rcases List.mem_append.mp hmem with h1 | h1
  · obtain ⟨hb, lvl, hm, o, ho, hid⟩ := mem_sideEntries_elim h1
    have hside : b.side ref.is_buy = b.bids := by rw [hb]; rfl
    have hfind : mapFind b.bids ref.price = some lvl :=
      mapFind_of_mem_nodup (by simpa [Book.side] using w.side_keys_nodup true) hm
    obtain ⟨o', h2, h3, h4⟩ := findOrder_some_of_mem ho hid
    refine ⟨lvl, o', by rw [hside]; exact hfind, h2, h4, ?_⟩
    exact ((w.bids_wf).2 (ref.price, lvl) hm).2 o' h3
  · obtain ⟨hb, lvl, hm, o, ho, hid⟩ := mem_sideEntries_elim h1
    have hside : b.side ref.is_buy = b.asks := by rw [hb]; rfl
    have hfind : mapFind b.asks ref.price = some lvl :=
      mapFind_of_mem_nodup (by simpa [Book.side] using w.side_keys_nodup false) hm
    obtain ⟨o', h2, h3, h4⟩ := findOrder_some_of_mem ho hid
    refine ⟨lvl, o', by rw [hside]; exact hfind, h2, h4, ?_⟩
    exact ((w.asks_wf).2 (ref.price, lvl) hm).2 o' h3

theorem wf_indexConsistent {b : Book} (w : WF b) : IndexConsistent b := by
  intro oid ref h
  obtain ⟨lvl, o, h1, h2, h3, h4⟩ := w.locate h
  obtain ⟨pre, post, hd, hpre, hid⟩ := findOrder_decomp h2
  exact ⟨lvl, h1, o, by rw [hd]; simp, h3, h4⟩

theorem perm_middle_four {α : Type} (A B C D : List α) (x : α) :
    (A ++ (B ++ x :: C) ++ D).Perm (x :: (A ++ (B ++ C) ++ D)) := by
  have h1 : A ++ (B ++ x :: C) ++ D = (A ++ B) ++ x :: (C ++ D) := by
    simp [List.append_assoc]
  have h2 : x :: (A ++ (B ++ C) ++ D) = x :: ((A ++ B) ++ (C ++ D)) := by
    simp [List.append_assoc]
  rw [h1, h2]
  exact List.perm_middle

theorem wf_entries_remove {b b' : Book} {oid : Int} {ref : OrderRef}
    {R : List (Int × OrderRef)}
    (hold : (bookEntries b).Perm ((oid, ref) :: R))
    (hnew : (bookEntries b').Perm R)
    (hidx : b'.index = idxErase b.index oid)
    (w : WF b) :
    ((bookEntries b').map Prod.fst).Nodup ∧
    ((b'.index.map Prod.fst).Nodup) ∧
    (∀ k v, idxFind b'.index k = some v ↔ (k, v) ∈ bookEntries b') := by
  have hndold : (((oid, ref) :: R).map Prod.fst).Nodup :=
    (hold.map Prod.fst).nodup_iff.mp w.ids_nodup
  simp only [List.map_cons, List.nodup_cons] at hndold
  refine ⟨?_, ?_, ?_⟩
  · exact (hnew.map Prod.fst).nodup_iff.mpr hndold.2
  · rw [hidx]
    exact idxErase_keys_nodup w.idx_nodup oid
  · intro k v
    rw [hidx, hnew.mem_iff]
    by_cases hk : k = oid
    · subst hk
      rw [idxFind_idxErase_self w.idx_nodup]
      constructor
      · intro hce
        exact absurd hce (by simp)
      · intro hmem
        exact absurd (List.mem_map_of_mem Prod.fst hmem) hndold.1
    · rw [idxFind_idxErase_ne hk, w.idx_iff, hold.mem_iff]
      simp only [List.mem_cons]
      constructor
      · intro hor
        rcases hor with he | hm
        · rw [Prod.mk.injEq] at he
          exact absurd he.1 hk
        · exact hm
      · intro hm
        exact Or.inr hm

theorem wf_entries_replace {b b' : Book} {oid : Int} {refOld refNew : OrderRef}
    {R : List (Int × OrderRef)}
    (hold : (bookEntries b).Perm ((oid, refOld) :: R))
    (hnew : (bookEntries b').Perm ((oid, refNew) :: R))
    (hidx : b'.index = idxSet b.index oid refNew)
    (w : WF b) :
    ((bookEntries b').map Prod.fst).Nodup ∧
    ((b'.index.map Prod.fst).Nodup) ∧
    (∀ k v, idxFind b'.index k = some v ↔ (k, v) ∈ bookEntries b') := by
  have hndold : (((oid, refOld) :: R).map Prod.fst).Nodup :=
    (hold.map Prod.fst).nodup_iff.mp w.ids_nodup
  simp only [List.map_cons, List.nodup_cons] at hndold
  have hfold : idxFind b.index oid = some refOld := (w.idx_iff oid refOld).mpr
    (hold.mem_iff.mpr (List.mem_cons_self _ _))
  refine ⟨?_, ?_, ?_⟩
  · refine (hnew.map Prod.fst).nodup_iff.mpr ?_
    simp only [List.map_cons, List.nodup_cons]
    exact hndold
  · rw [hidx, idxSet_keys]
    exact w.idx_nodup
  · intro k v
    rw [hidx, hnew.mem_iff]
    by_cases hk : k = oid
    · subst hk
      rw [idxFind_idxSet_self refNew hfold]
      simp only [List.mem_cons, Option.some_inj]
      constructor
      · intro he
        exact Or.inl (by rw [he])
      · intro hor
        rcases hor with he | hm
        · rw [Prod.mk.injEq] at he
          exact he.2.symm
        · exact absurd (List.mem_map_of_mem Prod.fst hm) hndold.1
    · rw [idxFind_idxSet_ne refNew hk, w.idx_iff, hold.mem_iff]
      simp only [List.mem_cons]
      constructor
      · intro hor
        rcases hor with he | hm
        · rw [Prod.mk.injEq] at he
          exact absurd he.1 hk
        · exact Or.inr hm
      · intro hor
        rcases hor with he | hm
        · rw [Prod.mk.injEq] at he
          exact absurd he.1 hk
        · exact Or.inr hm

theorem wf_entries_insert {b b' : Book} {oid : Int} {refNew : OrderRef}
    (hnone : idxFind b.index oid = none)
    (hnew : (bookEntries b').Perm ((oid, refNew) :: bookEntries b))
    (hidx : b'.index = b.index ++ [(oid, refNew)])
    (w : WF b) :
    ((bookEntries b').map Prod.fst).Nodup ∧
    ((b'.index.map Prod.fst).Nodup) ∧
    (∀ k v, idxFind b'.index k = some v ↔ (k, v) ∈ bookEntries b') := by
  have hnotin : oid ∉ (bookEntries b).map Prod.fst := by
    intro hm
    obtain ⟨x, hx, hxe⟩ := List.mem_map.mp hm
    obtain ⟨k2, v2⟩ := x
    have : idxFind b.index k2 = some v2 := (w.idx_iff k2 v2).mpr hx
    rw [show k2 = oid from hxe] at this
    rw [hnone] at this
    exact Option.noConfusion this
  have hkeynone : oid ∉ b.index.map Prod.fst := (idxFind_eq_none_iff b.index oid).mp hnone
  refine ⟨?_, ?_, ?_⟩
  · refine (hnew.map Prod.fst).nodup_iff.mpr ?_
    simp only [List.map_cons, List.nodup_cons]
    exact ⟨hnotin, w.ids_nodup⟩
  · rw [hidx, List.map_append, List.nodup_append]
    refine ⟨w.idx_nodup, by simp, ?_⟩
    intro a ha hb
    simp only [List.map_cons, List.map_nil, List.mem_singleton] at hb
    subst hb
    exact hkeynone ha
  · intro k v
    rw [hidx, hnew.mem_iff]
    by_cases hk : k = oid
    · subst hk
      have happ : idxFind (b.index ++ [(k, refNew)]) k = some refNew := by
        rw [idxFind_append, hnone]
        simp [idxFind]
      rw [happ]
      simp only [List.mem_cons, Option.some_inj]
      constructor
      · intro he
        exact Or.inl (by rw [he])
      · intro hor
        rcases hor with he | hm
        · rw [Prod.mk.injEq] at he
          exact he.2.symm
        · exact absurd (List.mem_map_of_mem Prod.fst hm) hnotin
    · have happ : idxFind (b.index ++ [(oid, refNew)]) k = idxFind b.index k := by
        rw [idxFind_append]
        cases hf : idxFind b.index k with
        | some w2 => rfl
        | none =>
          simp only [idxFind]
          rw [if_neg (fun he => hk he.symm)]
      rw [happ, w.idx_iff]
      simp only [List.mem_cons]
      constructor
      · exact fun hm => Or.inr hm
      · intro hor
        rcases hor with he | hm
        · rw [Prod.mk.injEq] at he
          exact absurd he.1 hk
        · exact hm

theorem WF.mk_of_side {b' : Book} (buy : Bool)
    (hfoc : SideWF (sideLt buy) (b'.side buy))
    (hoth : SideWF (sideLt (!buy)) (b'.side (!buy)))
    (h3 : ((bookEntries b').map Prod.fst).Nodup)
    (h4 : (b'.index.map Prod.fst).Nodup)
    (h5 : ∀ k v, idxFind b'.index k = some v ↔ (k, v) ∈ bookEntries b') : WF b' := by
  cases buy
  · exact ⟨hoth, hfoc, h3, h4, h5⟩
  · exact ⟨hfoc, hoth, h3, h4, h5⟩

theorem pairwise_remove_middle {R : Int × Level → Int × Level → Prop}
    {S1 S2 : Side} {x : Int × Level} (h : (S1 ++ x :: S2).Pairwise R) :
    (S1 ++ S2).Pairwise R :=
  h.sublist (List.Sublist.append_left (List.sublist_cons_self x S2) S1)

theorem pairwise_replace_middle {lt : Int → Int → Bool} {S1 S2 : Side} {k : Int}
    {l l' : Level} (h : (S1 ++ (k, l) :: S2).Pairwise (fun x y => lt x.1 y.1 = true)) :
    (S1 ++ (k, l') :: S2).Pairwise (fun x y => lt x.1 y.1 = true) := by
  rw [List.pairwise_append] at h ⊢
  obtain ⟨h1, h2, h3⟩ := h
  rw [List.pairwise_cons] at h2 ⊢
  refine ⟨h1, ⟨h2.1, h2.2⟩, ?_⟩
  intro x hx y hy
  rcases List.mem_cons.mp hy with he | hm
  · subst he
    exact h3 x hx (k, l) (List.mem_cons_self _ _)
  · exact h3 x hx y (List.mem_cons_of_mem _ hm)

theorem levels_remove_middle {S1 S2 : Side} {x : Int × Level}
    (h : ∀ pl ∈ S1 ++ x :: S2, pl.2 ≠ [] ∧ ∀ o' ∈ pl.2, o'.price = pl.1) :
    ∀ pl ∈ S1 ++ S2, pl.2 ≠ [] ∧ ∀ o' ∈ pl.2, o'.price = pl.1 := by
  intro pl hpl
  rcases List.mem_append.mp hpl with h1 | h2
  · exact h pl (List.mem_append.mpr (Or.inl h1))
  · exact h pl (List.mem_append.mpr (Or.inr (List.mem_cons_of_mem _ h2)))

theorem levels_replace_middle {S1 S2 : Side} {k : Int} {l l' : Level}
    (h : ∀ pl ∈ S1 ++ (k, l) :: S2, pl.2 ≠ [] ∧ ∀ o' ∈ pl.2, o'.price = pl.1)
    (hne : l' ≠ []) (hpx : ∀ o' ∈ l', o'.price = k) :
    ∀ pl ∈ S1 ++ (k, l') :: S2, pl.2 ≠ [] ∧ ∀ o' ∈ pl.2, o'.price = pl.1 := by
  intro pl hpl
  rcases List.mem_append.mp hpl with h1 | h2
  · exact h pl (List.mem_append.mpr (Or.inl h1))
  · rcases List.mem_cons.mp h2 with he | hm
    · subst he
      exact ⟨hne, hpx⟩
    · exact h pl (List.mem_append.mpr (Or.inr (List.mem_cons_of_mem _ hm)))

theorem eraseFromLevel_eq_cases {s : Side} {k : Int} {lvl : Level}
    (hnd : (s.map Prod.fst).Nodup) (h : mapFind s k = some lvl) (oid : Int) :
    eraseFromLevel s k oid =
      (if eraseOrder oid lvl = [] then eraseKey s k
       else setLevel s k (eraseOrder oid lvl)) := by
  obtain ⟨S1, S2, hs, h1, h2⟩ := mapFind_decomp hnd h
  subst hs
  rw [eraseFromLevel_append h1, eraseKey_append h1, setLevel_append h1]
  by_cases hh : eraseOrder oid lvl = [] <;> simp [hh]

theorem sideEntries_middle (buy : Bool) (S1 S2 : Side) (k : Int) (lvl : Level) :
    sideEntries buy (S1 ++ (k, lvl) :: S2) =
      sideEntries buy S1 ++ (levelEntries buy k lvl ++ sideEntries buy S2) := by
  rw [sideEntries_append]
  rfl

theorem levelEntries_middle (buy : Bool) (k : Int) (pre post : Level) (o : Order) :
    levelEntries buy k (pre ++ o :: post) =
      levelEntries buy k pre ++
        (o.order_id, ({ is_buy := buy, price := k } : OrderRef)) ::
          levelEntries buy k post := by
  simp [levelEntries, List.map_append]

theorem wf_entries_same {b b' : Book}
    (hperm : (bookEntries b').Perm (bookEntries b))
    (hidx : b'.index = b.index)
    (w : WF b) :
    ((bookEntries b').map Prod.fst).Nodup ∧
    ((b'.index.map Prod.fst).Nodup) ∧
    (∀ k v, idxFind b'.index k = some v ↔ (k, v) ∈ bookEntries b') := by
  refine ⟨(hperm.map Prod.fst).nodup_iff.mpr w.ids_nodup, by rw [hidx]; exact w.idx_nodup, ?_⟩
  intro k v
  rw [hidx, hperm.mem_iff]
  exact w.idx_iff k v

theorem levelEntries_append (buy : Bool) (k : Int) (l1 l2 : Level) :
    levelEntries buy k (l1 ++ l2) = levelEntries buy k l1 ++ levelEntries buy k l2 :=
  List.map_append _ _ _

theorem perm_pull_middle {α : Type} (A B C : List α) (x : α) :
    (A ++ (B ++ x :: C)).Perm (x :: (A ++ (B ++ C))) := by
  have h1 : A ++ (B ++ x :: C) = (A ++ B) ++ x :: C := by simp [List.append_assoc]
  have h2 : x :: (A ++ (B ++ C)) = x :: ((A ++ B) ++ C) := by simp [List.append_assoc]
  rw [h1, h2]
  exact List.perm_middle

theorem perm_pull_three {α : Type} (A B C D : List α) (x : α) :
    (A ++ (B ++ (C ++ x :: D))).Perm (x :: (A ++ (B ++ (C ++ D)))) := by
  have h1 : A ++ (B ++ (C ++ x :: D)) = ((A ++ B) ++ C) ++ x :: D := by
    simp [List.append_assoc]
  have h2 : x :: (A ++ (B ++ (C ++ D))) = x :: (((A ++ B) ++ C) ++ D) := by
    simp [List.append_assoc]
  rw [h1, h2]
  exact List.perm_middle

theorem wf_remove_order {b : Book} (w : WF b) {oid : Int} {ref : OrderRef}
    (hfind : idxFind b.index oid = some ref) :
    WF { b.setSide ref.is_buy (eraseFromLevel (b.side ref.is_buy) ref.price oid) with
         index := idxErase b.index oid } ∧
    idxFind (idxErase b.index oid) oid = none := by
  obtain ⟨lvl, o, hlvl, hord, hoid, hopx⟩ := w.locate hfind
  obtain ⟨pre, post, hdec, hpre, _⟩ := findOrder_decomp hord
  obtain ⟨S1, S2, hs, h1, h2⟩ := mapFind_decomp (w.side_keys_nodup ref.is_buy) hlvl
  refine ⟨?_, idxFind_idxErase_self w.idx_nodup oid⟩
  have herase : eraseOrder oid lvl = pre ++ post := by
    rw [hdec]
    exact eraseOrder_append hpre hoid post
  have hside : eraseFromLevel (b.side ref.is_buy) ref.price oid =
      S1 ++ (if pre ++ post = [] then S2 else (ref.price, pre ++ post) :: S2) := by
    rw [hs, eraseFromLevel_append h1, herase]
  have hpair : (S1 ++ (ref.price, lvl) :: S2).Pairwise
      (fun x y => sideLt ref.is_buy x.1 y.1 = true) := by
    rw [← hs]
    exact (w.side_wf ref.is_buy).1
  have hlev : ∀ pl ∈ S1 ++ (ref.price, lvl) :: S2,
      pl.2 ≠ [] ∧ ∀ o' ∈ pl.2, o'.price = pl.1 := by
    rw [← hs]
    exact (w.side_wf ref.is_buy).2
  have hlvlpx : ∀ o' ∈ lvl, o'.price = ref.price :=
    (hlev (ref.price, lvl) (List.mem_append.mpr (Or.inr (List.mem_cons_self _ _)))).2
  have hold : (bookEntries b).Perm ((oid, ref) ::
      (sideEntries ref.is_buy S1 ++
        (levelEntries ref.is_buy ref.price pre ++
          (levelEntries ref.is_buy ref.price post ++
            (sideEntries ref.is_buy S2 ++
              sideEntries (!ref.is_buy) (b.side (!ref.is_buy))))))) := by
    refine (bookEntries_perm b ref.is_buy).trans ?_
    rw [hs, sideEntries_middle, hdec, levelEntries_middle]
    rw [show (o.order_id, ({ is_buy := ref.is_buy, price := ref.price } : OrderRef)) =
        (oid, ref) by rw [hoid]]
    have he : (sideEntries ref.is_buy S1 ++
          ((levelEntries ref.is_buy ref.price pre ++
              (oid, ref) :: levelEntries ref.is_buy ref.price post) ++
            sideEntries ref.is_buy S2)) ++
          sideEntries (!ref.is_buy) (b.side (!ref.is_buy)) =
        sideEntries ref.is_buy S1 ++
          (levelEntries ref.is_buy ref.price pre ++
            (oid, ref) :: (levelEntries ref.is_buy ref.price post ++
              (sideEntries ref.is_buy S2 ++
                sideEntries (!ref.is_buy) (b.side (!ref.is_buy))))) := by
      simp [List.append_assoc]
    rw [he]
    exact perm_pull_middle _ _ _ _
  have hbnewside : ({ b.setSide ref.is_buy
        (eraseFromLevel (b.side ref.is_buy) ref.price oid) with
        index := idxErase b.index oid } : Book).side ref.is_buy =
      S1 ++ (if pre ++ post = [] then S2 else (ref.price, pre ++ post) :: S2) := by
    rw [side_withIndex, side_setSide_self, hside]
  have hbnewoth : ({ b.setSide ref.is_buy
        (eraseFromLevel (b.side ref.is_buy) ref.price oid) with
        index := idxErase b.index oid } : Book).side (!ref.is_buy) =
      b.side (!ref.is_buy) := by
    rw [side_withIndex, side_setSide_not]
  have hnew : (bookEntries { b.setSide ref.is_buy
        (eraseFromLevel (b.side ref.is_buy) ref.price oid) with
        index := idxErase b.index oid }).Perm
      (sideEntries ref.is_buy S1 ++
        (levelEntries ref.is_buy ref.price pre ++
          (levelEntries ref.is_buy ref.price post ++
            (sideEntries ref.is_buy S2 ++
              sideEntries (!ref.is_buy) (b.side (!ref.is_buy)))))) := by
    rw [bookEntries_withIndex]
    refine (bookEntries_setSide_perm b ref.is_buy _).trans ?_
    rw [hside]
    by_cases hh : pre ++ post = []
    · rw [if_pos hh]
      obtain ⟨hp1, hp2⟩ := List.append_eq_nil.mp hh
      subst hp1
      subst hp2
      rw [sideEntries_append]
      simp [levelEntries, List.append_assoc]
    · rw [if_neg hh, sideEntries_middle]
      rw [show levelEntries ref.is_buy ref.price (pre ++ post) =
          levelEntries ref.is_buy ref.price pre ++
            levelEntries ref.is_buy ref.price post from
        levelEntries_append _ _ _ _]
      simp [List.append_assoc]
  obtain ⟨hnd', hidxnd', hiff'⟩ := wf_entries_remove hold hnew rfl w
  refine WF.mk_of_side ref.is_buy ?_ ?_ hnd' hidxnd' hiff'
  · rw [hbnewside]
    by_cases hh : pre ++ post = []
    · rw [if_pos hh]
      exact ⟨pairwise_remove_middle hpair, levels_remove_middle hlev⟩
    · rw [if_neg hh]
      refine ⟨pairwise_replace_middle hpair, ?_⟩
      refine levels_replace_middle hlev hh ?_
      intro o' ho'
      refine hlvlpx o' ?_
      rw [hdec]
      rcases List.mem_append.mp ho' with hm | hm
      · exact List.mem_append.mpr (Or.inl hm)
      · exact List.mem_append.mpr (Or.inr (List.mem_cons_of_mem _ hm))
  · rw [hbnewoth]
    exact w.side_wf (!ref.is_buy)

theorem wf_insert_order {b : Book} (w : WF b) {oid : Int}
    (hnone : idxFind b.index oid = none) (buy : Bool) (px sz : Int) :
    WF { b.setSide buy
          (appendAtLevel (sideLt buy) (b.side buy) px
            { order_id := oid, price := px, qty := sz }) with
         index := idxEmplace b.index oid { is_buy := buy, price := px } } := by
  have hempl : idxEmplace b.index oid { is_buy := buy, price := px } =
      b.index ++ [(oid, { is_buy := buy, price := px })] :=
    idxEmplace_of_none _ hnone
  have hnew : (bookEntries { b.setSide buy
        (appendAtLevel (sideLt buy) (b.side buy) px
          { order_id := oid, price := px, qty := sz }) with
        index := idxEmplace b.index oid { is_buy := buy, price := px } }).Perm
      ((oid, ({ is_buy := buy, price := px } : OrderRef)) :: bookEntries b) := by
    rw [bookEntries_withIndex]
    refine (bookEntries_setSide_perm b buy _).trans ?_
    refine ((appendAtLevel_entries (sideLt buy) buy px
      { order_id := oid, price := px, qty := sz }).append_right _).trans ?_
    rw [List.cons_append]
    exact List.Perm.cons _ (bookEntries_perm b buy).symm
  obtain ⟨hnd', hidxnd', hiff'⟩ := wf_entries_insert hnone hnew (by rw [hempl]) w
  refine WF.mk_of_side buy ?_ ?_ hnd' hidxnd' hiff'
  · rw [side_withIndex, side_setSide_self]
    constructor
    · exact appendAtLevel_sorted (sideLt buy) (fun a c d h1 h2 => sideLt_trans buy h1 h2)
        (fun a c h => sideLt_total buy h) (w.side_wf buy).1 px _
    · exact appendAtLevel_levels _ (w.side_wf buy).2 rfl
  · rw [side_withIndex, side_setSide_not]
    exact w.side_wf (!buy)

theorem wf_clear {b : Book} (w : WF b) : WF (clear_ b) := by
  refine ⟨?_, ?_, ?_, ?_, ?_⟩ <;> simp [clear_, SideWF, bookEntries, sideEntries, idxFind]

theorem wf_add {b : Book} (w : WF b) (e : MboEvent) : WF (add_ b e) := by
  cases hfind : idxFind b.index e.order_id with
  | none =>
    have he : add_ b e = { b.setSide (e.side == 'B')
        (appendAtLevel (sideLt (e.side == 'B')) (b.side (e.side == 'B')) e.price
          { order_id := e.order_id, price := e.price, qty := e.size }) with
        index := idxEmplace b.index e.order_id
          { is_buy := (e.side == 'B'), price := e.price } } := by
      simp only [add_, hfind, setSide_index]
    rw [he]
    exact wf_insert_order w hfind (e.side == 'B') e.price e.size
  | some oldRef =>
    obtain ⟨w1, hnone1⟩ := wf_remove_order w hfind
    have he : add_ b e =
        { ({ b.setSide oldRef.is_buy
              (eraseFromLevel (b.side oldRef.is_buy) oldRef.price e.order_id) with
             index := idxErase b.index e.order_id } : Book).setSide (e.side == 'B')
            (appendAtLevel (sideLt (e.side == 'B'))
              (({ b.setSide oldRef.is_buy
                  (eraseFromLevel (b.side oldRef.is_buy) oldRef.price e.order_id) with
                 index := idxErase b.index e.order_id } : Book).side (e.side == 'B'))
              e.price
              { order_id := e.order_id, price := e.price, qty := e.size }) with
          index := idxEmplace
            ({ b.setSide oldRef.is_buy
                (eraseFromLevel (b.side oldRef.is_buy) oldRef.price e.order_id) with
               index := idxErase b.index e.order_id } : Book).index e.order_id
            { is_buy := (e.side == 'B'), price := e.price } } := by
      simp only [add_, hfind, setSide_index, side_withIndex]
    rw [he]
    exact wf_insert_order w1 hnone1 (e.side == 'B') e.price e.size

theorem wf_cancel {b : Book} (w : WF b) (e : MboEvent) : WF (cancel_ b e) := by
  cases hfind : idxFind b.index e.order_id with
  | none =>
    rw [show cancel_ b e = b by simp [cancel_, hfind]]
    exact w
  | some ref =>
    obtain ⟨lvl, o, hlvl, hord, hoid, hopx⟩ := w.locate hfind
    by_cases hq : (if o.qty ≤ e.size then 0 else o.qty - e.size) = 0
    · have he : cancel_ b e = { b.setSide ref.is_buy
          (eraseFromLevel (b.side ref.is_buy) ref.price e.order_id) with
          index := idxErase b.index e.order_id } := by
        simp only [cancel_, hfind, hlvl, hord, if_pos hq, setSide_index]
        rw [eraseFromLevel_eq_cases (w.side_keys_nodup ref.is_buy) hlvl e.order_id]
      rw [he]
      exact (wf_remove_order w hfind).1
    · have he : cancel_ b e = b.setSide ref.is_buy
          (setLevel (b.side ref.is_buy) ref.price
            (setQty e.order_id (if o.qty ≤ e.size then 0 else o.qty - e.size) lvl)) := by
        simp only [cancel_, hfind, hlvl, hord, if_neg hq]
      rw [he]
      obtain ⟨S1, S2, hs, h1, h2⟩ := mapFind_decomp (w.side_keys_nodup ref.is_buy) hlvl
      obtain ⟨pre, post, hdec, hpre, _⟩ := findOrder_decomp hord
      have hsetq : setQty e.order_id (if o.qty ≤ e.size then 0 else o.qty - e.size) lvl =
          pre ++ { o with qty := (if o.qty ≤ e.size then 0 else o.qty - e.size) } :: post := by
        rw [hdec]
        exact setQty_append hpre hoid _ post
      have hside : setLevel (b.side ref.is_buy) ref.price
          (setQty e.order_id (if o.qty ≤ e.size then 0 else o.qty - e.size) lvl) =
          S1 ++ (ref.price,
            pre ++ { o with qty := (if o.qty ≤ e.size then 0 else o.qty - e.size) } :: post)
            :: S2 := by
        rw [hs, setLevel_append h1, hsetq]
      have hpair : (S1 ++ (ref.price, lvl) :: S2).Pairwise
          (fun x y => sideLt ref.is_buy x.1 y.1 = true) := by
        rw [← hs]
        exact (w.side_wf ref.is_buy).1
      have hlev : ∀ pl ∈ S1 ++ (ref.price, lvl) :: S2,
          pl.2 ≠ [] ∧ ∀ o' ∈ pl.2, o'.price = pl.1 := by
        rw [← hs]
        exact (w.side_wf ref.is_buy).2
      have hlvlpx : ∀ o' ∈ lvl, o'.price = ref.price :=
        (hlev (ref.price, lvl) (List.mem_append.mpr (Or.inr (List.mem_cons_self _ _)))).2
      have hperm : (bookEntries (b.setSide ref.is_buy
          (setLevel (b.side ref.is_buy) ref.price
            (setQty e.order_id (if o.qty ≤ e.size then 0 else o.qty - e.size) lvl)))).Perm
          (bookEntries b) := by
        refine (bookEntries_setSide_perm b ref.is_buy _).trans ?_
        rw [hs, setLevel_append h1, sideEntries_middle, levelEntries_setQty,
          ← sideEntries_middle, ← hs]
        exact (bookEntries_perm b ref.is_buy).symm
      obtain ⟨hnd', hidxnd', hiff'⟩ :=
        wf_entries_same hperm (setSide_index b ref.is_buy _) w
      refine WF.mk_of_side ref.is_buy ?_ ?_ hnd' hidxnd' hiff'
      · rw [side_setSide_self, hside]
        refine ⟨pairwise_replace_middle hpair, ?_⟩
        refine levels_replace_middle hlev (by simp) ?_
        intro o' ho'
        rcases List.mem_append.mp ho' with hm | hm
        · exact hlvlpx o' (by rw [hdec]; exact List.mem_append.mpr (Or.inl hm))
        · rcases List.mem_cons.mp hm with heq | hm2
          · rw [heq]
            exact hopx
          · exact hlvlpx o' (by
              rw [hdec]
              exact List.mem_append.mpr (Or.inr (List.mem_cons_of_mem _ hm2)))
      · rw [side_setSide_not]
        exact w.side_wf (!ref.is_buy)

theorem extract_remove {b : Book} (w : WF b) {oid : Int} {ref : OrderRef}
    (hfind : idxFind b.index oid = some ref) :
    (bookEntries b).Perm ((oid, ref) ::
      (sideEntries ref.is_buy (eraseFromLevel (b.side ref.is_buy) ref.price oid) ++
        sideEntries (!ref.is_buy) (b.side (!ref.is_buy)))) ∧
    SideWF (sideLt ref.is_buy) (eraseFromLevel (b.side ref.is_buy) ref.price oid) := by
  obtain ⟨lvl, o, hlvl, hord, hoid, hopx⟩ := w.locate hfind
  obtain ⟨pre, post, hdec, hpre, _⟩ := findOrder_decomp hord
  obtain ⟨S1, S2, hs, h1, h2⟩ := mapFind_decomp (w.side_keys_nodup ref.is_buy) hlvl
  have herase : eraseOrder oid lvl = pre ++ post := by
    rw [hdec]
    exact eraseOrder_append hpre hoid post
  have hside : eraseFromLevel (b.side ref.is_buy) ref.price oid =
      S1 ++ (if pre ++ post = [] then S2 else (ref.price, pre ++ post) :: S2) := by
    rw [hs, eraseFromLevel_append h1, herase]
  have hpair : (S1 ++ (ref.price, lvl) :: S2).Pairwise
      (fun x y => sideLt ref.is_buy x.1 y.1 = true) := by
    rw [← hs]
    exact (w.side_wf ref.is_buy).1
  have hlev : ∀ pl ∈ S1 ++ (ref.price, lvl) :: S2,
      pl.2 ≠ [] ∧ ∀ o' ∈ pl.2, o'.price = pl.1 := by
    rw [← hs]
    exact (w.side_wf ref.is_buy).2
  have hlvlpx : ∀ o' ∈ lvl, o'.price = ref.price :=
    (hlev (ref.price, lvl) (List.mem_append.mpr (Or.inr (List.mem_cons_self _ _)))).2
  constructor
  · refine (bookEntries_perm b ref.is_buy).trans ?_
    rw [hs, sideEntries_middle, hdec, levelEntries_middle]
    rw [show (o.order_id, ({ is_buy := ref.is_buy, price := ref.price } : OrderRef)) =
        (oid, ref) by rw [hoid]]
    have he1 : (sideEntries ref.is_buy S1 ++
          ((levelEntries ref.is_buy ref.price pre ++
              (oid, ref) :: levelEntries ref.is_buy ref.price post) ++
            sideEntries ref.is_buy S2)) ++
          sideEntries (!ref.is_buy) (b.side (!ref.is_buy)) =
        sideEntries ref.is_buy S1 ++
          (levelEntries ref.is_buy ref.price pre ++
            (oid, ref) :: (levelEntries ref.is_buy ref.price post ++
              (sideEntries ref.is_buy S2 ++
                sideEntries (!ref.is_buy) (b.side (!ref.is_buy))))) := by
      simp [List.append_assoc]
    rw [he1]
    refine (perm_pull_middle _ _ _ _).trans ?_
    refine List.Perm.cons _ ?_
    rw [eraseFromLevel_append h1]
    rw [show eraseOrder oid (pre ++ o :: post) = pre ++ post from
      eraseOrder_append hpre hoid post]
    by_cases hh : pre ++ post = []
    · rw [if_pos hh]
      obtain ⟨hp1, hp2⟩ := List.append_eq_nil.mp hh
      subst hp1
      subst hp2
      rw [sideEntries_append]
      simp [levelEntries, List.append_assoc]
    · rw [if_neg hh, sideEntries_middle]
      rw [show levelEntries ref.is_buy ref.price (pre ++ post) =
          levelEntries ref.is_buy ref.price pre ++
            levelEntries ref.is_buy ref.price post from
        levelEntries_append _ _ _ _]
      simp [List.append_assoc]
  · rw [hside]
    by_cases hh : pre ++ post = []
    · rw [if_pos hh]
      exact ⟨pairwise_remove_middle hpair, levels_remove_middle hlev⟩
    · rw [if_neg hh]
      refine ⟨pairwise_replace_middle hpair, ?_⟩
      refine levels_replace_middle hlev hh ?_
      intro o' ho'
      refine hlvlpx o' ?_
      rw [hdec]
      rcases List.mem_append.mp ho' with hm | hm
      · exact List.mem_append.mpr (Or.inl hm)
      · exact List.mem_append.mpr (Or.inr (List.mem_cons_of_mem _ hm))

theorem wf_modify {b : Book} (w : WF b) (e : MboEvent) : WF (modify_ b e) := by
  cases hfind : idxFind b.index e.order_id with
  | none =>
    rw [show modify_ b e = add_ b e by simp [modify_, hfind]]
    exact wf_add w e
  | some ref =>
    by_cases hmatch : ((e.side == 'B') ≠ ref.is_buy)
    · rw [show modify_ b e = b by simp [modify_, hfind, if_pos hmatch]]
      exact w
    · obtain ⟨lvl, o, hlvl, hord, hoid, hopx⟩ := w.locate hfind
      by_cases hpx : e.price ≠ ref.price
      · have he : modify_ b e = { b.setSide ref.is_buy
            (appendAtLevel (sideLt ref.is_buy)
              (eraseFromLevel (b.side ref.is_buy) ref.price e.order_id) e.price
              { order_id := e.order_id, price := e.price, qty := e.size }) with
            index := idxSet b.index e.order_id
              { is_buy := ref.is_buy, price := e.price } } := by
          simp only [modify_, hfind, if_neg hmatch, if_pos hpx, setSide_index]
        rw [he]
        obtain ⟨hold, hwf1⟩ := extract_remove w hfind
        have hnew : (bookEntries { b.setSide ref.is_buy
            (appendAtLevel (sideLt ref.is_buy)
              (eraseFromLevel (b.side ref.is_buy) ref.price e.order_id) e.price
              { order_id := e.order_id, price := e.price, qty := e.size }) with
            index := idxSet b.index e.order_id
              { is_buy := ref.is_buy, price := e.price } }).Perm
            ((e.order_id, ({ is_buy := ref.is_buy, price := e.price } : OrderRef)) ::
              (sideEntries ref.is_buy
                  (eraseFromLevel (b.side ref.is_buy) ref.price e.order_id) ++
                sideEntries (!ref.is_buy) (b.side (!ref.is_buy)))) := by
          rw [bookEntries_withIndex]
          refine (bookEntries_setSide_perm b ref.is_buy _).trans ?_
          refine ((appendAtLevel_entries (sideLt ref.is_buy) ref.is_buy e.price
            { order_id := e.order_id, price := e.price, qty := e.size }).append_right
              _).trans ?_
          rw [List.cons_append]
        obtain ⟨hnd', hidxnd', hiff'⟩ := wf_entries_replace hold hnew rfl w
        refine WF.mk_of_side ref.is_buy ?_ ?_ hnd' hidxnd' hiff'
        · rw [side_withIndex, side_setSide_self]
          constructor
          · exact appendAtLevel_sorted (sideLt ref.is_buy)
              (fun a c d h1 h2 => sideLt_trans ref.is_buy h1 h2)
              (fun a c h => sideLt_total ref.is_buy h) hwf1.1 e.price _
          · exact appendAtLevel_levels _ hwf1.2 rfl
        · rw [side_withIndex, side_setSide_not]
          exact w.side_wf (!ref.is_buy)
      · push_neg at hpx
        obtain ⟨S1, S2, hs, h1, h2⟩ := mapFind_decomp (w.side_keys_nodup ref.is_buy) hlvl
        obtain ⟨pre, post, hdec, hpre, _⟩ := findOrder_decomp hord
        have hpair : (S1 ++ (ref.price, lvl) :: S2).Pairwise
            (fun x y => sideLt ref.is_buy x.1 y.1 = true) := by
          rw [← hs]
          exact (w.side_wf ref.is_buy).1
        have hlev : ∀ pl ∈ S1 ++ (ref.price, lvl) :: S2,
            pl.2 ≠ [] ∧ ∀ o' ∈ pl.2, o'.price = pl.1 := by
          rw [← hs]
          exact (w.side_wf ref.is_buy).2
        have hlvlpx : ∀ o' ∈ lvl, o'.price = ref.price :=
          (hlev (ref.price, lvl) (List.mem_append.mpr (Or.inr (List.mem_cons_self _ _)))).2
        have herase : eraseOrder e.order_id lvl = pre ++ post := by
          rw [hdec]
          exact eraseOrder_append hpre hoid post
        by_cases hsz : o.qty < e.size
        · have he : modify_ b e = b.setSide ref.is_buy
              (setLevel (b.side ref.is_buy) ref.price
                (eraseOrder e.order_id lvl ++
                  [{ order_id := e.order_id, price := ref.price, qty := e.size }])) := by
            simp only [modify_, hfind, if_neg hmatch, hpx]
            simp only [ne_eq, not_true_eq_false, if_false, hlvl, hord, if_pos hsz]
          rw [he]
          have hold : (bookEntries b).Perm ((e.order_id, ref) ::
              (sideEntries ref.is_buy S1 ++
                ((levelEntries ref.is_buy ref.price pre ++
                    levelEntries ref.is_buy ref.price post) ++
                  (sideEntries ref.is_buy S2 ++
                    sideEntries (!ref.is_buy) (b.side (!ref.is_buy)))))) := by
            refine (bookEntries_perm b ref.is_buy).trans ?_
            rw [hs, sideEntries_middle, hdec, levelEntries_middle]
            rw [show (o.order_id,
                ({ is_buy := ref.is_buy, price := ref.price } : OrderRef)) =
                (e.order_id, ref) by rw [hoid]]
            have he1 : (sideEntries ref.is_buy S1 ++
                  ((levelEntries ref.is_buy ref.price pre ++
                      (e.order_id, ref) :: levelEntries ref.is_buy ref.price post) ++
                    sideEntries ref.is_buy S2)) ++
                  sideEntries (!ref.is_buy) (b.side (!ref.is_buy)) =
                sideEntries ref.is_buy S1 ++
                  (levelEntries ref.is_buy ref.price pre ++
                    (e.order_id, ref) :: (levelEntries ref.is_buy ref.price post ++
                      (sideEntries ref.is_buy S2 ++
                        sideEntries (!ref.is_buy) (b.side (!ref.is_buy))))) := by
              simp [List.append_assoc]
            rw [he1]
            refine (perm_pull_middle _ _ _ _).trans ?_
            refine List.Perm.cons _ ?_
            simp [List.append_assoc]
          have hnew : (bookEntries (b.setSide ref.is_buy
              (setLevel (b.side ref.is_buy) ref.price
                (eraseOrder e.order_id lvl ++
                  [{ order_id := e.order_id, price := ref.price, qty := e.size }])))).Perm
              ((e.order_id, ref) ::
                (sideEntries ref.is_buy S1 ++
                  ((levelEntries ref.is_buy ref.price pre ++
                      levelEntries ref.is_buy ref.price post) ++
                    (sideEntries ref.is_buy S2 ++
                      sideEntries (!ref.is_buy) (b.side (!ref.is_buy)))))) := by
            refine (bookEntries_setSide_perm b ref.is_buy _).trans ?_
            rw [hs, setLevel_append h1, sideEntries_middle, herase]
            rw [levelEntries_append, levelEntries_append]
            simp only [levelEntries, List.map_cons, List.map_nil]
            simp only [List.append_assoc, List.cons_append, List.singleton_append,
              List.nil_append]
            exact perm_pull_three _ _ _ _ _
          obtain ⟨hnd', hidxnd', hiff'⟩ := wf_entries_same
            (hnew.trans hold.symm) (setSide_index b ref.is_buy _) w
          refine WF.mk_of_side ref.is_buy ?_ ?_ hnd' hidxnd' hiff'
          · rw [side_setSide_self, hs, setLevel_append h1]
            refine ⟨pairwise_replace_middle hpair, ?_⟩
            refine levels_replace_middle hlev (by simp) ?_
            intro o' ho'
            rcases List.mem_append.mp ho' with hm | hm
            · rw [herase] at hm
              refine hlvlpx o' ?_
              rw [hdec]
              rcases List.mem_append.mp hm with hm2 | hm2
              · exact List.mem_append.mpr (Or.inl hm2)
              · exact List.mem_append.mpr (Or.inr (List.mem_cons_of_mem _ hm2))
            · rw [List.mem_singleton] at hm
              rw [hm]
          · rw [side_setSide_not]
            exact w.side_wf (!ref.is_buy)
        · have he : modify_ b e = b.setSide ref.is_buy
              (setLevel (b.side ref.is_buy) ref.price
                (setQty e.order_id e.size lvl)) := by
            simp only [modify_, hfind, if_neg hmatch, hpx]
            simp only [ne_eq, not_true_eq_false, if_false, hlvl, hord, if_neg hsz]
          rw [he]
          have hsetq : setQty e.order_id e.size lvl =
              pre ++ { o with qty := e.size } :: post := by
            rw [hdec]
            exact setQty_append hpre hoid _ post
          have hperm : (bookEntries (b.setSide ref.is_buy
              (setLevel (b.side ref.is_buy) ref.price
                (setQty e.order_id e.size lvl)))).Perm (bookEntries b) := by
            refine (bookEntries_setSide_perm b ref.is_buy _).trans ?_
            rw [hs, setLevel_append h1, sideEntries_middle, levelEntries_setQty,
              ← sideEntries_middle, ← hs]
            exact (bookEntries_perm b ref.is_buy).symm
          obtain ⟨hnd', hidxnd', hiff'⟩ :=
            wf_entries_same hperm (setSide_index b ref.is_buy _) w
          refine WF.mk_of_side ref.is_buy ?_ ?_ hnd' hidxnd' hiff'
          · rw [side_setSide_self, hs, setLevel_append h1, hsetq]
            refine ⟨pairwise_replace_middle hpair, ?_⟩
            refine levels_replace_middle hlev (by simp) ?_
            intro o' ho'
            rcases List.mem_append.mp ho' with hm | hm
            · exact hlvlpx o' (by rw [hdec]; exact List.mem_append.mpr (Or.inl hm))
            · rcases List.mem_cons.mp hm with heq | hm2
              · rw [heq]
                exact hopx
              · exact hlvlpx o' (by
                  rw [hdec]
                  exact List.mem_append.mpr (Or.inr (List.mem_cons_of_mem _ hm2)))
          · rw [side_setSide_not]
            exact w.side_wf (!ref.is_buy)

theorem wf_empty (sym : String) : WF (emptyBook sym) := by
  refine ⟨?_, ?_, ?_, ?_, ?_⟩ <;>
    simp [emptyBook, SideWF, bookEntries, sideEntries, idxFind]

theorem wf_apply {b : Book} (w : WF b) (e : MboEvent) : WF (apply b e) := by
  rw [apply]
  by_cases h1 : e.action = 'T' ∨ e.action = 'F' ∨ e.action = 'N'
  · rw [if_pos h1]
    exact w
  · rw [if_neg h1]
    by_cases h2 : e.action = 'R'
    · rw [if_pos h2]
      exact wf_clear w
    · rw [if_neg h2]
      by_cases h3 : e.side ≠ 'A' ∧ e.side ≠ 'B'
      · rw [if_pos h3]
        exact w
      · rw [if_neg h3]
        by_cases h4 : e.action = 'A'
        · rw [if_pos h4]
          exact wf_add w e
        · rw [if_neg h4]
          by_cases h5 : e.action = 'C'
          · rw [if_pos h5]
            exact wf_cancel w e
          · rw [if_neg h5]
            by_cases h6 : e.action = 'M'
            · rw [if_pos h6]
              exact wf_modify w e
            · rw [if_neg h6]
              exact w

theorem wf_applyList (es : List MboEvent) : ∀ {b : Book}, WF b → WF (applyList es b) := by
  induction es with
  | nil => intro b w; exact w
  | cons e rest ih => intro b w; exact ih (wf_apply w e)

/-! ## Theorems: book invariants (C1, C4) -/

/-- C1: for every finite event sequence applied via `apply` to an initially
empty book, after each applied event every entry in the OrderIndex refers
to a node present in the price level keyed by the entry's recorded price on
the entry's recorded side, and the order stored at that node has the index
key as its id and the level's key as its price. -/
theorem index_consistency (sym : String) (es : List MboEvent) (n : Nat) :
    IndexConsistent (applyList (es.take n) (emptyBook sym)) :=
  wf_indexConsistent (wf_applyList (es.take n) (wf_empty sym))

/-- C4 (amended): after each applied event the bid side's prices are
strictly descending and the ask side's prices strictly ascending — each
price occurs at most once per side.  The cross-side half of the original
claim is false: the engine performs no matching, so the same price can be
live on both sides, as the counterexample below shows. -/
theorem sides_strictly_ordered (sym : String) (es : List MboEvent) (n : Nat) :
    ((applyList (es.take n) (emptyBook sym)).bids.map Prod.fst).Pairwise
      (fun a b => b < a) ∧
    ((applyList (es.take n) (emptyBook sym)).asks.map Prod.fst).Pairwise
      (fun a b => a < b) := by
  have w := wf_applyList (es.take n) (wf_empty sym)
  constructor
  · rw [List.pairwise_map]
    refine w.bids_wf.1.imp ?_
    intro a b h
    simpa [sideLt] using h
  · rw [List.pairwise_map]
    refine w.asks_wf.1.imp ?_
    intro a b h
    simpa [sideLt] using h

/-- C4 counterexample: applying `A B 100 5 #1` then `A A 100 3 #2` to the
empty book leaves price 100 with a non-empty level on the bid side and a
non-empty level on the ask side at the same instant. -/
theorem price_on_both_sides_counterexample :
    mapFind bookBoth.bids 100 = some [{ order_id := 1, price := 100, qty := 5 }] ∧
    mapFind bookBoth.asks 100 = some [{ order_id := 2, price := 100, qty := 3 }] := by
  constructor <;> rfl

/-! ## Theorems: cancel semantics (C2) -/

theorem mapFind_middle_self {S1 S2 : Side} {k : Int} (h1 : k ∉ S1.map Prod.fst)
    (lvl : Level) : mapFind (S1 ++ (k, lvl) :: S2) k = some lvl := by
  rw [mapFind_append]
  rw [show mapFind S1 k = none from (mapFind_eq_none_iff S1 k).mpr h1]
  simp [mapFind]

theorem mapFind_middle_ne {S1 S2 : Side} {k p : Int} (hp : ¬ p = k) (lvl : Level) :
    mapFind (S1 ++ (k, lvl) :: S2) p = mapFind (S1 ++ S2) p := by
  rw [mapFind_append, mapFind_append]
  cases mapFind S1 p with
  | some l => rfl
  | none =>
    simp only [mapFind]
    rw [if_neg (fun he => hp he.symm)]

theorem mapFind_append_none {S1 S2 : Side} {k : Int} (h1 : k ∉ S1.map Prod.fst)
    (h2 : k ∉ S2.map Prod.fst) : mapFind (S1 ++ S2) k = none := by
  rw [mapFind_append]
  rw [show mapFind S1 k = none from (mapFind_eq_none_iff S1 k).mpr h1]
  exact (mapFind_eq_none_iff S2 k).mpr h2

theorem apply_action_C (b : Book) (e : MboEvent) (hact : e.action = 'C')
    (hside : e.side = 'B' ∨ e.side = 'A') : apply b e = cancel_ b e := by
  rcases hside with h | h <;> simp [apply, hact, h]

/-- C2: a `C` event with side `B` or `A` on a well-formed book: an unknown
order id leaves the book unchanged; on a known id resting with quantity
`q`, if `e.size ≥ q` the node is removed from its level (the level being
deleted exactly when it empties) and the index entry erased, and otherwise
the resting quantity decreases by exactly `e.size` with the node keeping
its position in the FIFO; in both cases every other order, level, price and
index entry is untouched. -/
theorem cancel_spec (b : Book) (e : MboEvent) (w : WF b)
    (hact : e.action = 'C') (hside : e.side = 'B' ∨ e.side = 'A') :
    (idxFind b.index e.order_id = none → apply b e = b) ∧
    (∀ ref lvl pre o post,
      idxFind b.index e.order_id = some ref →
      mapFind (b.side ref.is_buy) ref.price = some lvl →
      lvl = pre ++ o :: post →
      o.order_id = e.order_id →
      (∀ x ∈ pre, ¬ x.order_id = e.order_id) →
      ((o.qty ≤ e.size →
          mapFind ((apply b e).side ref.is_buy) ref.price =
            (if pre ++ post = [] then none else some (pre ++ post)) ∧
          idxFind (apply b e).index e.order_id = none ∧
          (∀ k, ¬ k = e.order_id →
            idxFind (apply b e).index k = idxFind b.index k) ∧
          (∀ p, ¬ p = ref.price →
            mapFind ((apply b e).side ref.is_buy) p =
              mapFind (b.side ref.is_buy) p) ∧
          (apply b e).side (!ref.is_buy) = b.side (!ref.is_buy)) ∧
       (e.size < o.qty →
          mapFind ((apply b e).side ref.is_buy) ref.price =
            some (pre ++ { o with qty := o.qty - e.size } :: post) ∧
          (apply b e).index = b.index ∧
          (∀ p, ¬ p = ref.price →
            mapFind ((apply b e).side ref.is_buy) p =
              mapFind (b.side ref.is_buy) p) ∧
          (apply b e).side (!ref.is_buy) = b.side (!ref.is_buy)))) := by
  rw [apply_action_C b e hact hside]
  constructor
  · intro hnone
    simp [cancel_, hnone]
  · intro ref lvl pre o post hfind hlvl hdece hoid hpre
    have hord : findOrder e.order_id lvl = some o := by
      rw [hdece]
      exact findOrder_append hpre hoid post
    obtain ⟨S1, S2, hs, h1, h2⟩ := mapFind_decomp (w.side_keys_nodup ref.is_buy) hlvl
    have herase : eraseOrder e.order_id lvl = pre ++ post := by
      rw [hdece]
      exact eraseOrder_append hpre hoid post
    constructor
    · intro hle
      have hq : (if o.qty ≤ e.size then 0 else o.qty - e.size) = 0 := if_pos hle
      have he : cancel_ b e = { b.setSide ref.is_buy
          (eraseFromLevel (b.side ref.is_buy) ref.price e.order_id) with
          index := idxErase b.index e.order_id } := by
        simp only [cancel_, hfind, hlvl, hord, if_pos hq, setSide_index]
        rw [eraseFromLevel_eq_cases (w.side_keys_nodup ref.is_buy) hlvl e.order_id]
      have hsidenew : (cancel_ b e).side ref.is_buy =
          S1 ++ (if pre ++ post = [] then S2 else (ref.price, pre ++ post) :: S2) := by
        rw [he, side_withIndex, side_setSide_self, hs, eraseFromLevel_append h1, herase]
      refine ⟨?_, ?_, ?_, ?_, ?_⟩
      · rw [hsidenew]
        by_cases hh : pre ++ post = []
        · rw [if_pos hh, if_pos hh]
          exact mapFind_append_none h1 h2
        · rw [if_neg hh, if_neg hh]
          exact mapFind_middle_self h1 _
      · rw [he]
        exact idxFind_idxErase_self w.idx_nodup e.order_id
      · intro k hk
        rw [he]
        exact idxFind_idxErase_ne hk
      · intro p hp
        rw [hsidenew, hs]
        by_cases hh : pre ++ post = []
        · rw [if_pos hh, mapFind_middle_ne hp]
        · rw [if_neg hh, mapFind_middle_ne hp, mapFind_middle_ne hp]
      · rw [he, side_withIndex, side_setSide_not]
    · intro hlt
      have hq : ¬ (if o.qty ≤ e.size then 0 else o.qty - e.size) = 0 := by
        rw [if_neg (not_le.mpr hlt)]
        omega
      have hqv : (if o.qty ≤ e.size then 0 else o.qty - e.size) = o.qty - e.size :=
        if_neg (not_le.mpr hlt)
      have he : cancel_ b e = b.setSide ref.is_buy
          (setLevel (b.side ref.is_buy) ref.price
            (setQty e.order_id (o.qty - e.size) lvl)) := by
        simp only [cancel_, hfind, hlvl, hord, hqv]
        rw [if_neg (show ¬ o.qty - e.size = 0 from by omega)]
      have hsetq : setQty e.order_id (o.qty - e.size) lvl =
          pre ++ { o with qty := o.qty - e.size } :: post := by
        rw [hdece]
        exact setQty_append hpre hoid _ post
      have hsidenew : (cancel_ b e).side ref.is_buy =
          S1 ++ (ref.price, pre ++ { o with qty := o.qty - e.size } :: post) :: S2 := by
        rw [he, side_setSide_self, hs, setLevel_append h1, hsetq]
      refine ⟨?_, ?_, ?_, ?_⟩
      · rw [hsidenew]
        exact mapFind_middle_self h1 _
      · rw [he, setSide_index]
      · intro p hp
        rw [hsidenew, hs, mapFind_middle_ne hp, mapFind_middle_ne hp]
      · rw [he, side_setSide_not]

/-- C2 witness: cancelling 2 of order #1's 5 lots at bid 100 in the
concrete book leaves it at quantity 3 at the head of its level. -/
theorem cancel_spec_witness :
    ((mkEv 'C' 'B' 100 2 1 "S").action = 'C' ∧
      ((mkEv 'C' 'B' 100 2 1 "S").side = 'B' ∨ (mkEv 'C' 'B' 100 2 1 "S").side = 'A') ∧
      idxFind bookW.index 1 = some { is_buy := true, price := 100 } ∧
      (2 : Int) < 5) ∧
    mapFind ((apply bookW (mkEv 'C' 'B' 100 2 1 "S")).side true) 100 =
      some [{ order_id := 1, price := 100, qty := 3 },
            { order_id := 2, price := 100, qty := 7 }] ∧
    (apply bookW (mkEv 'C' 'B' 100 2 1 "S")).index = bookW.index := by
  have h := cancel_spec bookW (mkEv 'C' 'B' 100 2 1 "S")
    (wf_applyList _ (wf_empty "S")) rfl (Or.inl rfl)
  have h2 := (h.2 { is_buy := true, price := 100 }
    [{ order_id := 1, price := 100, qty := 5 }, { order_id := 2, price := 100, qty := 7 }]
    [] { order_id := 1, price := 100, qty := 5 }
    [{ order_id := 2, price := 100, qty := 7 }]
    rfl rfl rfl rfl (by simp)).2 (by decide)
  exact ⟨⟨rfl, Or.inl rfl, rfl, by decide⟩, h2.1, h2.2.1⟩

/-! ## Theorems: modify semantics (C3) -/

theorem apply_action_M (b : Book) (e : MboEvent) (hact : e.action = 'M')
    (hside : e.side = 'B' ∨ e.side = 'A') : apply b e = modify_ b e := by
  rcases hside with h | h <;> simp [apply, hact, h]

/-- C3: an `M` event whose order id is resting on the side recorded in the
index: a price change detaches the order from its current level (deleting
the level if it emptied) and appends it at the tail of the FIFO at the new
price with quantity `e.size`, repointing the index entry; an unchanged
price with `e.size` greater than the resting quantity re-appends the order
at the tail of the same level with quantity `e.size`; otherwise the
quantity is set to `e.size` in place and the FIFO position is kept.  In
every case all other levels, orders and index entries are untouched. -/
theorem modify_spec (b : Book) (e : MboEvent) (w : WF b)
    (hact : e.action = 'M') (hside : e.side = 'B' ∨ e.side = 'A') :
    ∀ ref lvl pre o post,
      idxFind b.index e.order_id = some ref →
      (e.side == 'B') = ref.is_buy →
      mapFind (b.side ref.is_buy) ref.price = some lvl →
      lvl = pre ++ o :: post →
      o.order_id = e.order_id →
      (∀ x ∈ pre, ¬ x.order_id = e.order_id) →
      ((¬ e.price = ref.price →
          mapFind ((apply b e).side ref.is_buy) e.price =
            some ((match mapFind (b.side ref.is_buy) e.price with
                   | some l => l
                   | none => []) ++
              [{ order_id := e.order_id, price := e.price, qty := e.size }]) ∧
          mapFind ((apply b e).side ref.is_buy) ref.price =
            (if pre ++ post = [] then none else some (pre ++ post)) ∧
          idxFind (apply b e).index e.order_id =
            some { is_buy := ref.is_buy, price := e.price } ∧
          (∀ k, ¬ k = e.order_id →
            idxFind (apply b e).index k = idxFind b.index k) ∧
          (∀ p, ¬ p = ref.price → ¬ p = e.price →
            mapFind ((apply b e).side ref.is_buy) p =
              mapFind (b.side ref.is_buy) p) ∧
          (apply b e).side (!ref.is_buy) = b.side (!ref.is_buy)) ∧
       (e.price = ref.price → o.qty < e.size →
          mapFind ((apply b e).side ref.is_buy) ref.price =
            some ((pre ++ post) ++
              [{ order_id := e.order_id, price := ref.price, qty := e.size }]) ∧
          (apply b e).index = b.index ∧
          (∀ p, ¬ p = ref.price →
            mapFind ((apply b e).side ref.is_buy) p =
              mapFind (b.side ref.is_buy) p) ∧
          (apply b e).side (!ref.is_buy) = b.side (!ref.is_buy)) ∧
       (e.price = ref.price → e.size ≤ o.qty →
          mapFind ((apply b e).side ref.is_buy) ref.price =
            some (pre ++ { o with qty := e.size } :: post) ∧
          (apply b e).index = b.index ∧
          (∀ p, ¬ p = ref.price →
            mapFind ((apply b e).side ref.is_buy) p =
              mapFind (b.side ref.is_buy) p) ∧
          (apply b e).side (!ref.is_buy) = b.side (!ref.is_buy))) := by
  intro ref lvl pre o post hfind hmatch hlvl hdece hoid hpre
  have hord : findOrder e.order_id lvl = some o := by
    rw [hdece]
    exact findOrder_append hpre hoid post
  obtain ⟨S1, S2, hs, h1, h2⟩ := mapFind_decomp (w.side_keys_nodup ref.is_buy) hlvl
  have herase : eraseOrder e.order_id lvl = pre ++ post := by
    rw [hdece]
    exact eraseOrder_append hpre hoid post
  have hsorted : (S1 ++ (ref.price, lvl) :: S2).Pairwise
      (fun x y => sideLt ref.is_buy x.1 y.1 = true) := by
    have hp := (w.side_wf ref.is_buy).1
    rwa [hs] at hp
  refine ⟨?_, ?_, ?_⟩
  · intro hpne
    have he : apply b e =
        { b.setSide ref.is_buy
            (appendAtLevel (sideLt ref.is_buy)
              (eraseFromLevel (b.side ref.is_buy) ref.price e.order_id) e.price
              { order_id := e.order_id, price := e.price, qty := e.size }) with
          index := idxSet b.index e.order_id
            { is_buy := ref.is_buy, price := e.price } } := by
      rw [apply_action_M b e hact hside]
      simp only [modify_, hfind, setSide_index]
      rw [if_neg (show ¬ (e.side == 'B') ≠ ref.is_buy from fun hc => hc hmatch),
        if_pos hpne]
    have hs1 : eraseFromLevel (b.side ref.is_buy) ref.price e.order_id =
        S1 ++ (if pre ++ post = [] then S2 else (ref.price, pre ++ post) :: S2) := by
      rw [hs, eraseFromLevel_append h1, herase]
    have hs1sorted : (eraseFromLevel (b.side ref.is_buy) ref.price e.order_id).Pairwise
        (fun x y => sideLt ref.is_buy x.1 y.1 = true) := by
      rw [hs1]
      by_cases hh : pre ++ post = []
      · rw [if_pos hh]
        exact pairwise_remove_middle hsorted
      · rw [if_neg hh]
        exact pairwise_replace_middle hsorted
    have hmfs1p : mapFind (eraseFromLevel (b.side ref.is_buy) ref.price e.order_id)
        e.price = mapFind (b.side ref.is_buy) e.price := by
      rw [hs1, hs]
      by_cases hh : pre ++ post = []
      · rw [if_pos hh, mapFind_middle_ne hpne]
      · rw [if_neg hh, mapFind_middle_ne hpne, mapFind_middle_ne hpne]
    have hsidenew : (apply b e).side ref.is_buy =
        appendAtLevel (sideLt ref.is_buy)
          (eraseFromLevel (b.side ref.is_buy) ref.price e.order_id) e.price
          { order_id := e.order_id, price := e.price, qty := e.size } := by
      rw [he, side_withIndex, side_setSide_self]
    refine ⟨?_, ?_, ?_, ?_, ?_, ?_⟩
    · rw [hsidenew, appendAtLevel_mapFind_self (sideLt ref.is_buy)
        (fun a c h => sideLt_asymm ref.is_buy h) hs1sorted, hmfs1p]
    · rw [hsidenew, appendAtLevel_mapFind_ne (sideLt ref.is_buy)
        (fun hc => hpne hc.symm), hs1]
      by_cases hh : pre ++ post = []
      · rw [if_pos hh, if_pos hh]
        exact mapFind_append_none h1 h2
      · rw [if_neg hh, if_neg hh]
        exact mapFind_middle_self h1 _
    · rw [he]
      exact idxFind_idxSet_self _ hfind
    · intro k hk
      rw [he]
      exact idxFind_idxSet_ne _ hk
    · intro p hp hpe2
      rw [hsidenew, appendAtLevel_mapFind_ne (sideLt ref.is_buy) hpe2, hs1, hs]
      by_cases hh : pre ++ post = []
      · rw [if_pos hh, mapFind_middle_ne hp]
      · rw [if_neg hh, mapFind_middle_ne hp, mapFind_middle_ne hp]
    · rw [he, side_withIndex, side_setSide_not]
  · intro hpe hinc
    have he : apply b e = b.setSide ref.is_buy (setLevel (b.side ref.is_buy) ref.price
        (eraseOrder e.order_id lvl ++
          [{ order_id := e.order_id, price := ref.price, qty := e.size }])) := by
      rw [apply_action_M b e hact hside]
      simp only [modify_, hfind, hlvl, hord]
      rw [if_neg (show ¬ (e.side == 'B') ≠ ref.is_buy from fun hc => hc hmatch),
        if_neg (show ¬ e.price ≠ ref.price from fun hc => hc hpe), if_pos hinc]
    have hsidenew : (apply b e).side ref.is_buy =
        S1 ++ (ref.price, (pre ++ post) ++
          [{ order_id := e.order_id, price := ref.price, qty := e.size }]) :: S2 := by
      rw [he, side_setSide_self, hs, setLevel_append h1, herase]
    refine ⟨?_, ?_, ?_, ?_⟩
    · rw [hsidenew]
      exact mapFind_middle_self h1 _
    · rw [he, setSide_index]
    · intro p hp
      rw [hsidenew, hs, mapFind_middle_ne hp, mapFind_middle_ne hp]
    · rw [he, side_setSide_not]
  · intro hpe hdec
    have he : apply b e = b.setSide ref.is_buy (setLevel (b.side ref.is_buy) ref.price
        (setQty e.order_id e.size lvl)) := by
      rw [apply_action_M b e hact hside]
      simp only [modify_, hfind, hlvl, hord]
      rw [if_neg (show ¬ (e.side == 'B') ≠ ref.is_buy from fun hc => hc hmatch),
        if_neg (show ¬ e.price ≠ ref.price from fun hc => hc hpe),
        if_neg (not_lt.mpr hdec)]
    have hsetq : setQty e.order_id e.size lvl =
        pre ++ { o with qty := e.size } :: post := by
      rw [hdece]
      exact setQty_append hpre hoid _ post
    have hsidenew : (apply b e).side ref.is_buy =
        S1 ++ (ref.price, pre ++ { o with qty := e.size } :: post) :: S2 := by
      rw [he, side_setSide_self, hs, setLevel_append h1, hsetq]
    refine ⟨?_, ?_, ?_, ?_⟩
    · rw [hsidenew]
      exact mapFind_middle_self h1 _
    · rw [he, setSide_index]
    · intro p hp
      rw [hsidenew, hs, mapFind_middle_ne hp, mapFind_middle_ne hp]
    · rw [he, side_setSide_not]

/-- C3 witness: moving order #1 from bid 100 to bid 99 with size 9 appends
it behind the resident order at 99, shrinks the level at 100 to order #2
alone, and repoints the index entry to price 99. -/
theorem modify_spec_witness :
    ((mkEv 'M' 'B' 99 9 1 "S").action = 'M' ∧
      idxFind bookW.index 1 = some { is_buy := true, price := 100 } ∧
      ¬ (99 : Int) = 100) ∧
    mapFind ((apply bookW (mkEv 'M' 'B' 99 9 1 "S")).side true) 99 =
      some [{ order_id := 3, price := 99, qty := 4 },
            { order_id := 1, price := 99, qty := 9 }] ∧
    mapFind ((apply bookW (mkEv 'M' 'B' 99 9 1 "S")).side true) 100 =
      some [{ order_id := 2, price := 100, qty := 7 }] ∧
    idxFind (apply bookW (mkEv 'M' 'B' 99 9 1 "S")).index 1 =
      some { is_buy := true, price := 99 } := by
  have h := modify_spec bookW (mkEv 'M' 'B' 99 9 1 "S")
    (wf_applyList _ (wf_empty "S")) rfl (Or.inl rfl)
  have h2 := (h { is_buy := true, price := 100 }
    [{ order_id := 1, price := 100, qty := 5 }, { order_id := 2, price := 100, qty := 7 }]
    [] { order_id := 1, price := 100, qty := 5 }
    [{ order_id := 2, price := 100, qty := 7 }]
    rfl rfl rfl rfl rfl (by simp)).1 (by decide)
  exact ⟨⟨rfl, rfl, by decide⟩, h2.1, h2.2.1, h2.2.2.1⟩

/-! ## Theorems: zero-size modify vs cancel (C9) -/

/-- C9: an `M` event with matching side, unchanged price and `e.size = 0`
on a resting order with non-negative quantity sets the order's quantity to
0 in place: the order stays in its level (which is not deleted and keeps
its order count) and its index entry is untouched.  In contrast, any `C`
event on the same order with `c.size` at least the resting quantity erases
the index entry and removes the node from the level. -/
theorem modify_zero_size_keeps_order (b : Book) (e : MboEvent) (w : WF b)
    (hact : e.action = 'M') (hside : e.side = 'B' ∨ e.side = 'A') :
    ∀ ref lvl pre o post,
      idxFind b.index e.order_id = some ref →
      (e.side == 'B') = ref.is_buy →
      mapFind (b.side ref.is_buy) ref.price = some lvl →
      lvl = pre ++ o :: post →
      o.order_id = e.order_id →
      (∀ x ∈ pre, ¬ x.order_id = e.order_id) →
      e.price = ref.price →
      e.size = 0 →
      0 ≤ o.qty →
      (mapFind ((apply b e).side ref.is_buy) ref.price =
          some (pre ++ { o with qty := 0 } :: post) ∧
        (pre ++ { o with qty := 0 } :: post).length = lvl.length ∧
        (apply b e).index = b.index ∧
        idxFind (apply b e).index e.order_id = some ref) ∧
      (∀ c : MboEvent, c.action = 'C' → (c.side = 'B' ∨ c.side = 'A') →
        c.order_id = e.order_id → o.qty ≤ c.size →
        idxFind (apply b c).index e.order_id = none ∧
        mapFind ((apply b c).side ref.is_buy) ref.price =
          (if pre ++ post = [] then none else some (pre ++ post))) := by
  intro ref lvl pre o post hfind hmatch hlvl hdece hoid hpre hpe hsz hq0
  have hord : findOrder e.order_id lvl = some o := by
    rw [hdece]
    exact findOrder_append hpre hoid post
  obtain ⟨S1, S2, hs, h1, h2⟩ := mapFind_decomp (w.side_keys_nodup ref.is_buy) hlvl
  have herase : eraseOrder e.order_id lvl = pre ++ post := by
    rw [hdece]
    exact eraseOrder_append hpre hoid post
  constructor
  · have hdec : ¬ o.qty < e.size := by
      rw [hsz]
      exact not_lt.mpr hq0
    have he : apply b e = b.setSide ref.is_buy (setLevel (b.side ref.is_buy) ref.price
        (setQty e.order_id e.size lvl)) := by
      rw [apply_action_M b e hact hside]
      simp only [modify_, hfind, hlvl, hord]
      rw [if_neg (show ¬ (e.side == 'B') ≠ ref.is_buy from fun hc => hc hmatch),
        if_neg (show ¬ e.price ≠ ref.price from fun hc => hc hpe), if_neg hdec]
    have hsetq : setQty e.order_id e.size lvl =
        pre ++ { o with qty := 0 } :: post := by
      rw [hdece, setQty_append hpre hoid _ post, hsz]
    have hsidenew : (apply b e).side ref.is_buy =
        S1 ++ (ref.price, pre ++ { o with qty := 0 } :: post) :: S2 := by
      rw [he, side_setSide_self, hs, setLevel_append h1, hsetq]
    refine ⟨?_, ?_, ?_, ?_⟩
    · rw [hsidenew]
      exact mapFind_middle_self h1 _
    · rw [hdece]
      simp
    · rw [he, setSide_index]
    · rw [he, setSide_index, hfind]
  · intro c hcact hcside hcid hcsz
    have hcfind : idxFind b.index c.order_id = some ref := by
      rw [hcid]
      exact hfind
    have hcord : findOrder c.order_id lvl = some o := by
      rw [hcid]
      exact hord
    have hq : (if o.qty ≤ c.size then 0 else o.qty - c.size) = 0 := if_pos hcsz
    have he : apply b c = { b.setSide ref.is_buy
        (eraseFromLevel (b.side ref.is_buy) ref.price c.order_id) with
        index := idxErase b.index c.order_id } := by
      rw [apply_action_C b c hcact hcside]
      simp only [cancel_, hcfind, hlvl, hcord, if_pos hq, setSide_index]
      rw [eraseFromLevel_eq_cases (w.side_keys_nodup ref.is_buy) hlvl c.order_id]
    have hcerase : eraseOrder c.order_id lvl = pre ++ post := by
      rw [hcid]
      exact herase
    constructor
    · rw [he, hcid]
      exact idxFind_idxErase_self w.idx_nodup e.order_id
    · rw [he, side_withIndex, side_setSide_self, hs, eraseFromLevel_append h1, hcerase]
      by_cases hh : pre ++ post = []
      · rw [if_pos hh, if_pos hh]
        exact mapFind_append_none h1 h2
      · rw [if_neg hh, if_neg hh]
        exact mapFind_middle_self h1 _

/-- C9 witness: a zero-size modify of order #2 at bid 100 keeps the order
resting with quantity 0 and its index entry alive, while a full cancel of
the same order erases its index entry. -/
theorem modify_zero_size_keeps_order_witness :
    ((mkEv 'M' 'B' 100 0 2 "S").action = 'M' ∧
      idxFind bookW.index 2 = some { is_buy := true, price := 100 } ∧
      (0 : Int) ≤ 7) ∧
    mapFind ((apply bookW (mkEv 'M' 'B' 100 0 2 "S")).side true) 100 =
      some [{ order_id := 1, price := 100, qty := 5 },
            { order_id := 2, price := 100, qty := 0 }] ∧
    idxFind (apply bookW (mkEv 'M' 'B' 100 0 2 "S")).index 2 =
      some { is_buy := true, price := 100 } ∧
    idxFind (apply bookW (mkEv 'C' 'B' 100 7 2 "S")).index 2 = none := by
  have h := modify_zero_size_keeps_order bookW (mkEv 'M' 'B' 100 0 2 "S")
    (wf_applyList _ (wf_empty "S")) rfl (Or.inl rfl)
    { is_buy := true, price := 100 }
    [{ order_id := 1, price := 100, qty := 5 }, { order_id := 2, price := 100, qty := 7 }]
    [{ order_id := 1, price := 100, qty := 5 }]
    { order_id := 2, price := 100, qty := 7 } []
    rfl rfl rfl rfl rfl (by decide) rfl rfl (by decide)
  have hc := h.2 (mkEv 'C' 'B' 100 7 2 "S") rfl (Or.inl rfl) rfl (by decide)
  exact ⟨⟨rfl, rfl, by decide⟩, h.1.1, h.1.2.2.2, hc.1⟩

end MboSpec
